import Mathlib

/-!
# Verification of the sidebet order-matching and settlement engine

This file gives a shallow embedding of `backend/app/core/trading_engine.py`
(class `TradingEngine`) and settles the frozen claims about it.

Modelling conventions:
* The SQLAlchemy session / database is an explicit `EngineState` record of lists.
* Python `Decimal` prices are exact rationals `ℚ` (Decimal arithmetic on the
  expressions the engine evaluates — products of an integer, a 4-decimal price
  and 100 — is exact).
* Python `int(x)` on a `Decimal` truncates toward zero; `int_cents` mirrors it.
* Balances are integer minor units (`BigInteger` column), quantities integers.
* A transaction that raises is rolled back; each operation therefore returns
  the pre-state together with the error, exactly like the
  `with serializable_transaction()` block around each operation (rollback on
  exception, commit on success; the engine errors modelled here contain no
  conflict keyword, so the block re-raises them unchanged).
* SQL three-valued logic: a comparison with `NULL` is not satisfied, so a
  filter `Order.price <= x` drops rows with a `NULL` price (`opt_le`).
-/

namespace Sidebet

/-!
Exact rational arithmetic.  The `Rat` operations shipped by Batteries are
marked `@[irreducible]`, which blocks kernel evaluation (`decide`); we therefore
spell out the standard formulas through `mkRat` and prove once that they agree
with the library operations.  All Decimal arithmetic the engine performs on
these expressions is exact, so `ℚ` is a faithful model.
-/

/-- Exact rational multiplication. -/
def qmul (a b : ℚ) : ℚ := mkRat (a.num * b.num) (a.den * b.den)

/-- Exact rational addition. -/
def qadd (a b : ℚ) : ℚ := mkRat (a.num * (b.den : ℤ) + b.num * (a.den : ℤ)) (a.den * b.den)

/-- Exact rational subtraction. -/
def qsub (a b : ℚ) : ℚ := mkRat (a.num * (b.den : ℤ) - b.num * (a.den : ℤ)) (a.den * b.den)

/-- Exact division of a rational by an integer (the only division the engine
performs); division by zero yields `0`, but is never reached by the engine on
well-formed data. -/
def qdiv_int (a : ℚ) (n : ℤ) : ℚ := mkRat (a.num * Int.sign n) (a.den * n.natAbs)

theorem den_cast_ne_zero (a : ℚ) : ((a.den : ℚ)) ≠ 0 :=
  Nat.cast_ne_zero.mpr a.den_nz

theorem mul_den_eq_num (a : ℚ) : a * (a.den : ℚ) = (a.num : ℚ) := by
  have h2 := div_mul_cancel₀ ((a.num : ℚ)) (den_cast_ne_zero a)
  rw [Rat.num_div_den] at h2
  exact h2

theorem qmul_eq (a b : ℚ) : qmul a b = a * b := by
  rw [qmul, Rat.mkRat_eq_div]
  push_cast
  rw [div_eq_iff (mul_ne_zero (den_cast_ne_zero a) (den_cast_ne_zero b))]
  linear_combination (-(b.num : ℚ)) * mul_den_eq_num a +
    (-(a * (a.den : ℚ))) * mul_den_eq_num b

theorem qadd_eq (a b : ℚ) : qadd a b = a + b := by
  rw [qadd, Rat.mkRat_eq_div]
  push_cast
  rw [div_eq_iff (mul_ne_zero (den_cast_ne_zero a) (den_cast_ne_zero b))]
  linear_combination (-(b.den : ℚ)) * mul_den_eq_num a + (-(a.den : ℚ)) * mul_den_eq_num b

theorem qsub_eq (a b : ℚ) : qsub a b = a - b := by
  rw [qsub, Rat.mkRat_eq_div]
  push_cast
  rw [div_eq_iff (mul_ne_zero (den_cast_ne_zero a) (den_cast_ne_zero b))]
  linear_combination (-(b.den : ℚ)) * mul_den_eq_num a + ((a.den : ℚ)) * mul_den_eq_num b

theorem qdiv_int_eq (a : ℚ) (n : ℤ) : qdiv_int a n = a / (n : ℚ) := by
  rcases lt_trichotomy n 0 with hn | hn | hn
  · rw [qdiv_int, Int.sign_eq_neg_one_of_neg hn, Rat.mkRat_eq_div]
    push_cast [Int.cast_natAbs]
    rw [abs_of_neg (show ((n : ℚ)) < 0 by exact_mod_cast hn)]
    rw [mul_neg_one, mul_neg, neg_div_neg_eq]
    conv_rhs => rw [← Rat.num_div_den a]
    rw [div_div]
  · subst hn
    simp [qdiv_int, Rat.mkRat_eq_div]
  · rw [qdiv_int, Int.sign_eq_one_of_pos hn, Rat.mkRat_eq_div]
    push_cast [Int.cast_natAbs]
    rw [abs_of_pos (show (0 : ℚ) < (n : ℚ) by exact_mod_cast hn)]
    rw [mul_one]
    conv_rhs => rw [← Rat.num_div_den a]
    rw [div_div]

/-- Python `int(q * p * 100)` for an integer `q` and exact-decimal `p`: the
value `q·p·100` is the exact rational `(q·p.num·100) / p.den`, and `int()`
truncates it toward zero (`Int.tdiv` is T-division). -/
def int_cents (q : ℤ) (p : ℚ) : ℤ := Int.tdiv (q * p.num * 100) (p.den : ℤ)

/-- Decidable equality of `Except`, needed to evaluate theorems about engine
results by `decide`. -/
instance exceptDecEq {ε α : Type} [DecidableEq ε] [DecidableEq α] :
    DecidableEq (Except ε α)
  | .error e, .error f =>
    if h : e = f then .isTrue (by rw [h])
    else .isFalse (by intro hh; cases hh; exact h rfl)
  | .error _, .ok _ => .isFalse (by intro h; cases h)
  | .ok _, .error _ => .isFalse (by intro h; cases h)
  | .ok a, .ok b =>
    if h : a = b then .isTrue (by rw [h])
    else .isFalse (by intro hh; cases hh; exact h rfl)

/-- Find the first element of `l` whose key is `k`. -/
def find_by {α κ : Type} [DecidableEq κ] (key : α → κ) (k : κ) (l : List α) : Option α :=
  l.find? (fun a => decide (key a = k))

/-- Apply `f` to every element of `l` whose key is `k` (row update by primary key). -/
def upd_by {α κ : Type} [DecidableEq κ] (key : α → κ) (k : κ) (f : α → α) (l : List α) :
    List α :=
  l.map (fun a => if key a = k then f a else a)

/-- Stable insertion into a list sorted by `le`. -/
def insert_sorted {α : Type} (le : α → α → Bool) (a : α) : List α → List α
  | [] => [a]
  | b :: l => if le a b then a :: b :: l else b :: insert_sorted le a l

/-- Stable insertion sort by `le` (models the SQL `ORDER BY` on a key that is
total on the rows involved). -/
def sort_by {α : Type} (le : α → α → Bool) : List α → List α
  | [] => []
  | a :: l => insert_sorted le a (sort_by le l)

/-! ### Generic lemmas about keyed lists and sorting -/

theorem mem_of_find_by {α κ : Type} [DecidableEq κ] {key : α → κ} {k : κ} {l : List α}
    {a : α} (h : find_by key k l = some a) : a ∈ l ∧ key a = k := by
  obtain ⟨hmem, hkey⟩ := List.find?_some h, List.mem_of_find?_eq_some h
  exact ⟨hkey, by simpa using hmem⟩

theorem find_by_of_mem_nodup {α κ : Type} [DecidableEq κ] {key : α → κ} {l : List α}
    {a : α} (hnd : (l.map key).Nodup) (hmem : a ∈ l) :
    find_by key (key a) l = some a := by
  induction l with
  | nil => cases hmem
  | cons b t ih =>
    rw [List.map_cons, List.nodup_cons] at hnd
    rcases List.mem_cons.mp hmem with rfl | hmem'
    · simp [find_by]
    · rw [find_by, List.find?_cons]
      split
      · next hb =>
        exfalso
        exact hnd.1 (by rw [of_decide_eq_true hb]; exact List.mem_map_of_mem key hmem')
      · exact ih hnd.2 hmem'

theorem upd_by_map_key {α κ : Type} [DecidableEq κ] {key : α → κ} {k : κ} {f : α → α}
    (hf : ∀ a, key (f a) = key a) (l : List α) :
    (upd_by key k f l).map key = l.map key := by
  induction l with
  | nil => rfl
  | cons b t ih =>
    by_cases hb : key b = k <;> simp [upd_by, hb, hf] at ih ⊢ <;>
      simpa [upd_by] using ih

theorem find_by_upd_by_self {α κ : Type} [DecidableEq κ] {key : α → κ} {k : κ}
    {f : α → α} (hf : ∀ a, key (f a) = key a) (l : List α) :
    find_by key k (upd_by key k f l) = (find_by key k l).map f := by
  induction l with
  | nil => rfl
  | cons b t ih =>
    by_cases hb : key b = k
    · simp [find_by, upd_by, List.find?_cons, hb, hf]
    · simp only [upd_by, List.map_cons, if_neg hb] at *
      simp only [find_by, List.find?_cons] at *
      rw [decide_eq_false hb]
      exact ih

theorem find_by_upd_by_ne {α κ : Type} [DecidableEq κ] {key : α → κ} {k k' : κ}
    {f : α → α} (hf : ∀ a, key (f a) = key a) (hne : k' ≠ k) (l : List α) :
    find_by key k' (upd_by key k f l) = find_by key k' l := by
  induction l with
  | nil => rfl
  | cons b t ih =>
    simp only [upd_by, List.map_cons] at ih ⊢
    by_cases hb : key b = k
    · rw [if_pos hb]
      simp only [find_by, List.find?_cons] at ih ⊢
      have h1 : decide (key (f b) = k') = false :=
        decide_eq_false (by rw [hf, hb]; exact Ne.symm hne)
      have h2 : decide (key b = k') = false :=
        decide_eq_false (by rw [hb]; exact Ne.symm hne)
      rw [h1, h2]
      exact ih
    · rw [if_neg hb]
      simp only [find_by, List.find?_cons] at ih ⊢
      by_cases hb' : key b = k'
      · rw [decide_eq_true hb']
      · rw [decide_eq_false hb']
        exact ih

theorem upd_by_of_absent {α κ : Type} [DecidableEq κ] {key : α → κ} {k : κ} {f : α → α}
    {l : List α} (h : ∀ a ∈ l, key a ≠ k) : upd_by key k f l = l := by
  induction l with
  | nil => rfl
  | cons b t ih =>
    rw [upd_by, List.map_cons, if_neg (h b (List.mem_cons_self b t))]
    have := ih (fun a ha => h a (List.mem_cons_of_mem b ha))
    rw [upd_by] at this
    rw [this]

theorem mem_insert_sorted {α : Type} {le : α → α → Bool} {x a : α} {l : List α} :
    a ∈ insert_sorted le x l ↔ a = x ∨ a ∈ l := by
  induction l with
  | nil => simp [insert_sorted]
  | cons b t ih =>
    rw [insert_sorted]
    split
    · simp
    · rw [List.mem_cons, ih, List.mem_cons]
      tauto

theorem mem_sort_by {α : Type} {le : α → α → Bool} {a : α} {l : List α} :
    a ∈ sort_by le l ↔ a ∈ l := by
  induction l with
  | nil => simp [sort_by]
  | cons b t ih =>
    rw [sort_by, mem_insert_sorted, ih, List.mem_cons]

/-- A list is sorted for the boolean relation `le`. -/
def sorted_by {α : Type} (le : α → α → Bool) (l : List α) : Prop :=
  List.Pairwise (fun a b => le a b = true) l

theorem sorted_insert_sorted {α : Type} {le : α → α → Bool}
    (htot : ∀ a b, le a b = true ∨ le b a = true)
    (htrans : ∀ a b c, le a b = true → le b c = true → le a c = true)
    {x : α} {l : List α} (hl : sorted_by le l) :
    sorted_by le (insert_sorted le x l) := by
  induction l with
  | nil => simp [insert_sorted, sorted_by]
  | cons b t ih =>
    rw [sorted_by, List.pairwise_cons] at hl
    rw [insert_sorted]
    split
    · next hxb =>
      refine List.Pairwise.cons ?_ (List.Pairwise.cons hl.1 hl.2)
      intro c hc
      rcases List.mem_cons.mp hc with rfl | hct
      · exact hxb
      · exact htrans x b c hxb (hl.1 c hct)
    · next hxb =>
      have hbx : le b x = true := by
        rcases htot x b with h | h
        · exact absurd h hxb
        · exact h
      refine List.Pairwise.cons ?_ (ih hl.2)
      intro c hc
      rcases mem_insert_sorted.mp hc with rfl | hct
      · exact hbx
      · exact hl.1 c hct

theorem sorted_sort_by {α : Type} {le : α → α → Bool}
    (htot : ∀ a b, le a b = true ∨ le b a = true)
    (htrans : ∀ a b c, le a b = true → le b c = true → le a c = true)
    (l : List α) : sorted_by le (sort_by le l) := by
  induction l with
  | nil => exact List.Pairwise.nil
  | cons b t ih => exact sorted_insert_sorted htot htrans ih

/-- Sum of a function over the elements kept by a filter, as a sum over the
whole list. -/
theorem sum_map_filter_eq {α : Type} (f : α → Bool) (g : α → ℤ) (l : List α) :
    ((l.filter f).map g).sum = (l.map (fun a => if f a then g a else 0)).sum := by
  induction l with
  | nil => rfl
  | cons b t ih =>
    by_cases hb : f b <;> simp [List.filter_cons, hb, ih]

/-! ## Data model (`app/models/…`) -/

/-- `users` row: only the fields the engine reads/writes. -/
structure UserRec where
  userId : ℕ
  balance : ℤ
deriving DecidableEq, Repr

/-- `orders` row. -/
structure OrderRec where
  orderId : ℕ
  userId : ℕ
  contractId : ℕ
  side : String
  contractSide : String
  orderType : String
  price : Option ℚ
  quantity : ℤ
  filledQuantity : ℤ
  status : String
  createdAt : ℕ
deriving DecidableEq, Repr

/-- `trades` row. -/
structure TradeRec where
  buyOrderId : ℕ
  sellOrderId : ℕ
  contractId : ℕ
  price : ℚ
  quantity : ℤ
deriving DecidableEq, Repr

/-- `positions` row (unique per `(user_id, contract_id, contract_side)`). -/
structure PositionRec where
  userId : ℕ
  contractId : ℕ
  contractSide : String
  quantity : ℤ
  avgPrice : ℚ
  realisedPnl : ℚ
  isActive : Bool
deriving DecidableEq, Repr

/-- `contracts` row. -/
structure ContractRec where
  contractId : ℕ
  marketId : ℕ
  status : String
deriving DecidableEq, Repr

/-- `markets` row (fields read by `process_market_resolution`). -/
structure MarketRec where
  marketId : ℕ
  status : String
  result : Option String
deriving DecidableEq, Repr

/-- The transactional store. `nextOrderId` models the order-id sequence,
`nextTime` a strictly monotone `created_at` clock. -/
structure EngineState where
  users : List UserRec
  contracts : List ContractRec
  orders : List OrderRec
  positions : List PositionRec
  trades : List TradeRec
  nextOrderId : ℕ
  nextTime : ℕ
deriving DecidableEq, Repr

/-! ## Row access helpers -/

def lookup_user (s : EngineState) (uid : ℕ) : Option UserRec :=
  find_by UserRec.userId uid s.users

def find_contract (s : EngineState) (cid : ℕ) : Option ContractRec :=
  find_by ContractRec.contractId cid s.contracts

def find_order (s : EngineState) (oid : ℕ) : Option OrderRec :=
  find_by OrderRec.orderId oid s.orders

def position_key (p : PositionRec) : ℕ × ℕ × String :=
  (p.userId, p.contractId, p.contractSide)

def find_position (s : EngineState) (uid cid : ℕ) (cside : String) : Option PositionRec :=
  find_by position_key (uid, cid, cside) s.positions

def upd_user (s : EngineState) (uid : ℕ) (f : UserRec → UserRec) : EngineState :=
  { s with users := upd_by UserRec.userId uid f s.users }

/-- `user.balance += amt` (a negative `amt` is a debit). -/
def credit_user (s : EngineState) (uid : ℕ) (amt : ℤ) : EngineState :=
  upd_user s uid (fun u => ({ u with balance := u.balance + amt } : UserRec))

def upd_order (s : EngineState) (oid : ℕ) (f : OrderRec → OrderRec) : EngineState :=
  { s with orders := upd_by OrderRec.orderId oid f s.orders }

def set_order_status (s : EngineState) (oid : ℕ) (st : String) : EngineState :=
  upd_order s oid (fun o => { o with status := st })

def upd_position (s : EngineState) (uid cid : ℕ) (cside : String)
    (f : PositionRec → PositionRec) : EngineState :=
  { s with positions := upd_by position_key (uid, cid, cside) f s.positions }

/-- Balance of a user (0 if absent), for stating theorems. -/
def balance_of (s : EngineState) (uid : ℕ) : ℤ :=
  (lookup_user s uid).elim 0 UserRec.balance

/-! ## Matching (`_match_order_concurrent`, lines 200–299) -/

/-- SQL `a <= b` on nullable columns: never satisfied when either is `NULL`. -/
def opt_le : Option ℚ → Option ℚ → Bool
  | some a, some b => decide (a ≤ b)
  | _, _ => false

/-- SQL `a >= b` on nullable columns. -/
def opt_ge : Option ℚ → Option ℚ → Bool
  | some a, some b => decide (a ≥ b)
  | _, _ => false

/-- The `filter(...)` of the matching query: opposite side, same contract and
contract side, status `open`, compatible price, different user
(lines 215–224 for an incoming BUY, 227–236 for an incoming SELL). -/
def match_filter (inc r : OrderRec) : Bool :=
  if inc.side = "BUY" then
    r.contractId = inc.contractId && r.contractSide = inc.contractSide &&
    r.side = "SELL" && r.status = "open" &&
    opt_le r.price inc.price && r.userId ≠ inc.userId
  else
    r.contractId = inc.contractId && r.contractSide = inc.contractSide &&
    r.side = "BUY" && r.status = "open" &&
    opt_ge r.price inc.price && r.userId ≠ inc.userId

/-- The `order_by` of the matching query: ascending price for an incoming BUY,
descending for an incoming SELL, then ascending `created_at`. -/
def match_le (inc : OrderRec) (a b : OrderRec) : Bool :=
  if inc.side = "BUY" then
    decide (a.price.getD 0 < b.price.getD 0) ||
      (decide (a.price.getD 0 = b.price.getD 0) && decide (a.createdAt ≤ b.createdAt))
  else
    decide (b.price.getD 0 < a.price.getD 0) ||
      (decide (a.price.getD 0 = b.price.getD 0) && decide (a.createdAt ≤ b.createdAt))

/-- The list of potentially matching resting orders, filtered and sorted as by
the locked SQL query. -/
def matching_orders (s : EngineState) (inc : OrderRec) : List OrderRec :=
  sort_by (match_le inc) (s.orders.filter (match_filter inc))

/-- `_update_position_concurrent` (lines 353–401), verbatim. -/
def update_position_concurrent (s : EngineState) (user_id contract_id : ℕ)
    (contract_side : String) (quantity_change : ℤ) (price : ℚ) : EngineState :=
  match find_position s user_id contract_id contract_side with
  | none =>
    if quantity_change > 0 then
      { s with positions := s.positions ++
          [{ userId := user_id, contractId := contract_id, contractSide := contract_side,
             quantity := quantity_change, avgPrice := price, realisedPnl := 0,
             isActive := true }] }
    else s
  | some _ =>
    upd_position s user_id contract_id contract_side (fun position =>
      if quantity_change > 0 then
        let old_value := qmul (position.quantity : ℚ) position.avgPrice
        let new_value := qmul (quantity_change : ℚ) price
        let new_quantity := position.quantity + quantity_change
        { position with
          avgPrice := qdiv_int (qadd old_value new_value) new_quantity,
          quantity := new_quantity }
      else
        let quantity_to_sell := |quantity_change|
        if quantity_to_sell ≥ position.quantity then
          { position with
            realisedPnl := qadd position.realisedPnl
              (qmul (position.quantity : ℚ) (qsub price position.avgPrice)),
            quantity := 0 }
        else
          { position with
            realisedPnl := qadd position.realisedPnl
              (qmul (quantity_to_sell : ℚ) (qsub price position.avgPrice)),
            quantity := position.quantity - quantity_to_sell })

/-- Increment `filled_quantity` and recompute the status of one order
(lines 330–338). -/
def bump_filled (quantity : ℤ) (o : OrderRec) : OrderRec :=
  let f := o.filledQuantity + quantity
  { o with filledQuantity := f,
           status := if f = o.quantity then "filled" else "partially_filled" }

/-- `_execute_trade_concurrent` (lines 301–351): create the trade row, fill both
orders, credit the seller, update both positions.  Both order ids are present in
the store when this runs (the incoming order was flushed, the resting one came
from the locked query); the fallback branch is unreachable. -/
def execute_trade_concurrent (s : EngineState) (order1_id order2_id : ℕ)
    (price : ℚ) (quantity : ℤ) : EngineState :=
  match find_order s order1_id, find_order s order2_id with
  | some o1, some o2 =>
    let buy_order := if o1.side = "BUY" then o1 else o2
    let sell_order := if o1.side = "BUY" then o2 else o1
    let trade : TradeRec :=
      { buyOrderId := buy_order.orderId, sellOrderId := sell_order.orderId,
        contractId := o1.contractId, price := price, quantity := quantity }
    let s1 := { s with trades := s.trades ++ [trade] }
    let s2 := upd_order s1 order1_id (bump_filled quantity)
    let s3 := upd_order s2 order2_id (bump_filled quantity)
    let trade_value := int_cents quantity price
    let s4 := credit_user s3 sell_order.userId trade_value
    let s5 := update_position_concurrent s4 buy_order.userId buy_order.contractId
      buy_order.contractSide quantity price
    update_position_concurrent s5 sell_order.userId sell_order.contractId
      sell_order.contractSide (-quantity) price
  | _, _ => s

/-- The matching loop of `_match_order_concurrent` (lines 250–278) over the
snapshot of matching orders.  Returns the state, the remaining quantity and the
number of trades executed.  An eligible order always carries a price (the SQL
price comparison is false on `NULL`), so `getD 0` is never exercised. -/
def match_order_loop (inc_id : ℕ) :
    EngineState → List OrderRec → ℤ → ℕ → EngineState × ℤ × ℕ
  | s, [], remaining, cnt => (s, remaining, cnt)
  | s, r :: rest, remaining, cnt =>
    if remaining ≤ 0 then (s, remaining, cnt)
    else if r.filledQuantity ≥ r.quantity then match_order_loop inc_id s rest remaining cnt
    else
      let available_quantity := r.quantity - r.filledQuantity
      let trade_quantity :=
        if remaining ≤ available_quantity then remaining else available_quantity
      if trade_quantity ≤ 0 then match_order_loop inc_id s rest remaining cnt
      else
        match lookup_user s r.userId with
        | none => match_order_loop inc_id s rest remaining cnt
        | some _ =>
          let trade_price := r.price.getD 0
          let s1 := execute_trade_concurrent s inc_id r.orderId trade_price trade_quantity
          match_order_loop inc_id s1 rest (remaining - trade_quantity) (cnt + 1)

/-- `_match_order_concurrent` (lines 200–299).  After the loop, the final
status/refund block (lines 281–297) re-reads the incoming order from the store
(the Python locals alias the session rows). -/
def match_order_concurrent (s : EngineState) (new_order : OrderRec) : EngineState × ℕ :=
  let remaining_quantity := new_order.quantity - new_order.filledQuantity
  if remaining_quantity ≤ 0 then (s, 0)
  else
    let ms := matching_orders s new_order
    let res := match_order_loop new_order.orderId s ms remaining_quantity 0
    let s1 := res.1
    let trades_executed := res.2.2
    match find_order s1 new_order.orderId with
    | none => (s1, trades_executed)
    | some o =>
      if o.filledQuantity = o.quantity then
        let s2 := set_order_status s1 o.orderId "filled"
        let s3 :=
          if o.side = "BUY" then
            credit_user s2 o.userId
              (int_cents (o.quantity - o.filledQuantity) (o.price.getD 0))
          else s2
        (s3, trades_executed)
      else if o.filledQuantity > 0 then
        let s2 := set_order_status s1 o.orderId "partially_filled"
        let s3 :=
          if o.side = "BUY" then
            credit_user s2 o.userId
              (int_cents (o.quantity - o.filledQuantity) (o.price.getD 0))
          else s2
        (s3, trades_executed)
      else
        let s2 :=
          if o.side = "BUY" then
            credit_user s1 o.userId (int_cents o.quantity (o.price.getD 0))
          else s1
        (s2, trades_executed)

/-! ## `place_order` (lines 74–198) -/

inductive EngineError where
  /-- `ValueError("Side must be 'BUY' or 'SELL'")` -/
  | invalidSide
  /-- `ValueError("Contract side must be 'YES' or 'NO'")` -/
  | invalidContractSide
  /-- `ValueError("Price must be between $0.01 and $0.99")` -/
  | invalidPrice
  /-- `ValueError("Contract not found")` -/
  | contractNotFound
  /-- `ValueError("Contract is not open for trading")` -/
  | contractNotOpen
  /-- `ValueError("User not found")` -/
  | userNotFound
  /-- `ValueError("Insufficient balance")` -/
  | insufficientBalance
  /-- `ValueError("Insufficient … position …")` -/
  | insufficientPosition
  /-- Python `TypeError` — `int(quantity * None * 100)` when a BUY order has no
  price.  Not a `ValueError`; it propagates out of the engine unhandled. -/
  | typeError
  /-- `ValueError("Market is not resolved or has no result.")` -/
  | marketNotResolved
deriving DecidableEq, Repr

/-- The price-range validation of lines 102–105: only checked when a price is
supplied. -/
def price_out_of_range (price : Option ℚ) : Bool :=
  match price with
  | some p => decide (p < mkRat 1 100) || decide (p > mkRat 99 100)
  | none => false

/-- Order creation and matching (lines 151–168), after all checks passed. -/
def place_order_rest (s : EngineState) (user_id contract_id : ℕ)
    (side contract_side order_type : String) (price : Option ℚ) (quantity : ℤ) :
    EngineState × ℕ :=
  let oid := s.nextOrderId
  let new_order : OrderRec :=
    { orderId := oid, userId := user_id, contractId := contract_id, side := side,
      contractSide := contract_side, orderType := order_type, price := price,
      quantity := quantity, filledQuantity := 0, status := "open",
      createdAt := s.nextTime }
  let s1 := { s with orders := s.orders ++ [new_order],
                     nextOrderId := oid + 1, nextTime := s.nextTime + 1 }
  ((match_order_concurrent s1 new_order).1, oid)

/-- The transactional body of `place_order` (lines 108–168): contract and user
lookups, balance reservation for BUY, position check for SELL, then order
creation and matching.  Any error aborts with no state change (rollback). -/
def place_order_tx (s : EngineState) (user_id contract_id : ℕ)
    (side contract_side order_type : String) (price : Option ℚ) (quantity : ℤ) :
    Except EngineError (EngineState × ℕ) :=
  match find_contract s contract_id with
  | none => .error .contractNotFound
  | some contract =>
    if contract.status ≠ "open" then .error .contractNotOpen
    else
      match lookup_user s user_id with
      | none => .error .userNotFound
      | some user =>
        if side = "BUY" then
          match price with
          | none => .error .typeError
          | some p =>
            let required_balance := int_cents quantity p
            if user.balance < required_balance then .error .insufficientBalance
            else
              let s1 := credit_user s user_id (-required_balance)
              .ok (place_order_rest s1 user_id contract_id side contract_side
                order_type price quantity)
        else
          match find_position s user_id contract_id contract_side with
          | none => .error .insufficientPosition
          | some user_position =>
            if user_position.quantity < quantity then .error .insufficientPosition
            else
              .ok (place_order_rest s user_id contract_id side contract_side
                order_type price quantity)

/-- `place_order` (lines 74–198): parameter validation before the transaction,
then the transactional body; an exception rolls the transaction back, so an
error returns the unchanged pre-state. -/
def place_order (s : EngineState) (user_id contract_id : ℕ)
    (side contract_side order_type : String) (price : Option ℚ) (quantity : ℤ) :
    EngineState × Except EngineError ℕ :=
  if ¬(side = "BUY" ∨ side = "SELL") then (s, .error .invalidSide)
  else if ¬(contract_side = "YES" ∨ contract_side = "NO") then
    (s, .error .invalidContractSide)
  else if price_out_of_range price then (s, .error .invalidPrice)
  else
    match place_order_tx s user_id contract_id side contract_side order_type
        price quantity with
    | .error e => (s, .error e)
    | .ok (s1, oid) => (s1, .ok oid)

/-! ## `cancel_order` (lines 555–592) -/

/-- `cancel_order`: refund the remaining reservation of a BUY order, set status
`cancelled`.  Any exception inside the transaction is rolled back and reported
as `False` (the `except` clause); this is what happens if a BUY order has no
price (`TypeError` computing the refund). -/
def cancel_order (s : EngineState) (order_id user_id : ℕ) : EngineState × Bool :=
  match s.orders.find? (fun o =>
      o.orderId = order_id && o.userId = user_id &&
      (o.status = "open" || o.status = "partially_filled")) with
  | none => (s, false)
  | some order =>
    if order.side = "BUY" then
      let remaining_quantity := order.quantity - order.filledQuantity
      if remaining_quantity > 0 then
        match order.price with
        | none => (s, false)
        | some p =>
          let refund_amount := int_cents remaining_quantity p
          let s1 :=
            match lookup_user s user_id with
            | some _ => credit_user s user_id refund_amount
            | none => s
          (set_order_status s1 order_id "cancelled", true)
      else (set_order_status s order_id "cancelled", true)
    else (set_order_status s order_id "cancelled", true)

/-! ## `get_order_book` (lines 594–641) -/

/-- Add `q` shares at price level `p` (the Python dict accumulation). -/
def add_level (p : ℚ) (q : ℤ) : List (ℚ × ℤ) → List (ℚ × ℤ)
  | [] => [(p, q)]
  | (p', q') :: rest =>
    if p' = p then (p', q' + q) :: rest else (p', q') :: add_level p q rest

/-- Aggregate remaining quantity by price level (lines 622–636).  A resting
order with remaining quantity but no price makes the Python code raise when the
levels are sorted (`float(str(None))`); that is modelled by `none`. -/
def build_levels : List OrderRec → List (ℚ × ℤ) → Option (List (ℚ × ℤ))
  | [], acc => some acc
  | o :: os, acc =>
    let remaining_qty := o.quantity - o.filledQuantity
    if remaining_qty > 0 then
      match o.price with
      | none => none
      | some p => build_levels os (add_level p remaining_qty acc)
    else build_levels os acc

/-- The `filter` of the two order-book queries (lines 599–616): same contract
and contract side, the requested order side, and status exactly `"open"`. -/
def book_filter (contract_id : ℕ) (contract_side side : String) (o : OrderRec) : Bool :=
  o.contractId = contract_id && o.contractSide = contract_side &&
  o.side = side && o.status = "open"

/-- `get_order_book`: aggregation of status-`open` orders' remaining quantity by
price level; bids sorted by descending price, asks ascending. -/
def get_order_book (s : EngineState) (contract_id : ℕ) (contract_side : String) :
    Option (List (ℚ × ℤ) × List (ℚ × ℤ)) :=
  let buy_orders := s.orders.filter (book_filter contract_id contract_side "BUY")
  let sell_orders := s.orders.filter (book_filter contract_id contract_side "SELL")
  match build_levels buy_orders [], build_levels sell_orders [] with
  | some bids, some asks =>
    some (sort_by (fun a b => decide (b.1 ≤ a.1)) bids,
          sort_by (fun a b => decide (a.1 ≤ b.1)) asks)
  | _, _ => none

/-! ## Market resolution (lines 403–459) -/

/-- The body of the `for position in positions` loop of `_payout_contract`
(lines 430–459): skip if the user row is missing, otherwise credit the payout,
accumulate realised PnL and clear `is_active`. -/
def payout_position (market_result : String) (s : EngineState) (position : PositionRec) :
    EngineState :=
  match lookup_user s position.userId with
  | none => s
  | some _ =>
    let cost_basis := int_cents position.quantity position.avgPrice
    let payout_amount : ℤ :=
      if market_result = "UNDECIDED" then cost_basis
      else if position.contractSide = market_result then position.quantity * 100
      else 0
    let pnl : ℤ :=
      if market_result = "UNDECIDED" then 0
      else if position.contractSide = market_result then position.quantity * 100 - cost_basis
      else -cost_basis
    let s1 := credit_user s position.userId payout_amount
    upd_position s1 position.userId position.contractId position.contractSide
      (fun p => { p with realisedPnl := qadd p.realisedPnl (mkRat pnl 100),
                         isActive := false })

/-- `_payout_contract` (lines 414–459): pays every position of the contract with
`quantity > 0` — the filter does not consult `is_active`. -/
def payout_contract (s : EngineState) (contract : ContractRec) (market_result : String) :
    EngineState :=
  let positions := s.positions.filter (fun p =>
    p.contractId = contract.contractId && p.quantity > 0)
  positions.foldl (payout_position market_result) s

/-- Python falsiness of `market.result` (`None` or the empty string). -/
def result_falsy : Option String → Bool
  | none => true
  | some r => r = ""

/-- `process_market_resolution` (lines 403–412). -/
def process_market_resolution (s : EngineState) (market : MarketRec) :
    EngineState × Except EngineError Unit :=
  if market.status ≠ "resolved" ∨ result_falsy market.result = true then
    (s, .error .marketNotResolved)
  else
    let result := market.result.getD ""
    let contracts := s.contracts.filter (fun c => c.marketId = market.marketId)
    (contracts.foldl (fun st c => payout_contract st c result) s, .ok ())

/-! ## Observation helpers for theorem statements -/

/-- Status of an order (empty string if absent), for stating theorems. -/
def order_status (s : EngineState) (oid : ℕ) : String :=
  (find_order s oid).elim "" OrderRec.status

/-- Modelled from the spec: the funds the specification says are reserved by a
single order — `(quantity − filled_quantity) × price` in minor units for a BUY
order in a non-terminal status, `0` otherwise. -/
def spec_reserved (o : OrderRec) : ℤ :=
  if o.side = "BUY" ∧ (o.status = "open" ∨ o.status = "partially_filled") then
    int_cents (o.quantity - o.filledQuantity) (o.price.getD 0)
  else 0

/-- Modelled from the spec: the conserved quantity of the conservation claim,
`Σ balances + Σ reserved-BUY-funds`. -/
def spec_conserved_sum (s : EngineState) : ℤ :=
  (s.users.map UserRec.balance).sum + (s.orders.map spec_reserved).sum

/-! ## Concrete fixtures -/

/-- One user with 10000 minor units, one open contract, empty book. -/
def state_a : EngineState :=
  { users := [{ userId := 1, balance := 10000 }],
    contracts := [{ contractId := 1, marketId := 1, status := "open" }],
    orders := [], positions := [], trades := [], nextOrderId := 1, nextTime := 0 }

/-- `state_a` after placing a BUY limit order for 100 shares at $0.50. -/
def state_a1 : EngineState :=
  (place_order state_a 1 1 "BUY" "YES" "limit" (some (mkRat 1 2)) 100).1

/-- `state_a1` after cancelling that order. -/
def state_a2 : EngineState := (cancel_order state_a1 1 1).1

/-! ## C1 — reservation accounting of BUY orders -/

/-- **C1** (code_bug evidence).  The claim: placing a BUY limit order for 100
shares at $0.50 with no matching SELL orders leaves 5000 minor units reserved
(balance 5000), and cancelling it refunds exactly 5000, restoring the original
balance 10000.  The code instead refunds the whole unfilled reservation at the
end of the placement attempt while the order stays `open` on the book
(`_match_order_concurrent` lines 293–297), and then refunds it *again* on
cancellation: the balance is 10000 right after placement and 15000 after the
cancel — the reservation is double-released and 5000 minor units are created. -/
theorem C1_reservation_refunded_twice :
    (place_order state_a 1 1 "BUY" "YES" "limit" (some (mkRat 1 2)) 100).2 = .ok 1 ∧
    order_status state_a1 1 = "open" ∧
    balance_of state_a1 1 = 10000 ∧
    (cancel_order state_a1 1 1).2 = true ∧
    order_status state_a2 1 = "cancelled" ∧
    balance_of state_a2 1 = 15000 := by
  decide

/-! ## C2 — conservation of balances plus reserved BUY funds -/

/-- **C2** (code_bug evidence).  The claim: `Σ balances + Σ reserved-BUY-funds`
is unchanged by each `place_order`/`cancel_order` operation.  On the code, a
single `place_order` of a BUY 100 @ $0.50 against an empty book moves the sum
from 10000 to 15000 (the debited reservation is immediately refunded while the
open order still counts as reserving 5000), and the subsequent cancel moves it
from 10000 to 15000 again in balance form: value is created. -/
theorem C2_conserved_sum_not_invariant :
    spec_conserved_sum state_a = 10000 ∧
    spec_conserved_sum state_a1 = 15000 ∧
    spec_conserved_sum state_a2 = 15000 := by
  decide

/-! ## C3 — idempotence of market resolution -/

/-- One user, one resolved contract, one active YES position of 10 shares at
average price $0.50. -/
def state_r : EngineState :=
  { users := [{ userId := 1, balance := 0 }],
    contracts := [{ contractId := 1, marketId := 1, status := "resolved" }],
    orders := [],
    positions := [{ userId := 1, contractId := 1, contractSide := "YES", quantity := 10,
                    avgPrice := mkRat 1 2, realisedPnl := 0, isActive := true }],
    trades := [], nextOrderId := 1, nextTime := 0 }

/-- The resolved market paying out `state_r`'s contract. -/
def market_r : MarketRec := { marketId := 1, status := "resolved", result := some "YES" }

/-- `state_r` after one completed resolution run. -/
def state_r1 : EngineState := (process_market_resolution state_r market_r).1

/-- `state_r1` after a second resolution run. -/
def state_r2 : EngineState := (process_market_resolution state_r1 market_r).1

/-- **C3** (code_bug evidence).  The claim: a second resolution run after a
completed first run produces no balance changes, because positions with
`is_active = false` are skipped.  The code's `_payout_contract` selects
positions by `quantity > 0` only (line 419), never consults `is_active`, and
never zeroes `quantity`; so the second run pays the same position again: the
user's balance goes 0 → 1000 → 2000 even though the position was already marked
inactive by the first run. -/
theorem C3_second_resolution_pays_again :
    balance_of state_r1 1 = 1000 ∧
    (∀ p ∈ state_r1.positions, p.isActive = false ∧ p.quantity = 10) ∧
    balance_of state_r2 1 = 2000 := by
  decide

/-! ## C8 — validation order and rejection atomicity of `place_order` -/

/-- Every outcome of `place_order` is either a success or the untouched
pre-state with an error: the transactional wrapper rolls back on any exception
(lines 50–51), and validation failures happen before the transaction. -/
theorem place_order_cases (s : EngineState) (u c : ℕ) (sd cs ot : String)
    (p : Option ℚ) (q : ℤ) :
    (∃ oid s1, place_order s u c sd cs ot p q = (s1, .ok oid)) ∨
    (∃ e, place_order s u c sd cs ot p q = (s, .error e)) := by
  unfold place_order
  split
  · exact .inr ⟨_, rfl⟩
  · split
    · exact .inr ⟨_, rfl⟩
    · split
      · exact .inr ⟨_, rfl⟩
      · cases h : place_order_tx s u c sd cs ot p q with
        | error e => exact .inr ⟨e, rfl⟩
        | ok pair => exact .inl ⟨pair.2, pair.1, rfl⟩

/-- **C8**.  `place_order` with a side outside {BUY, SELL}, a contract side
outside {YES, NO}, or a supplied price outside [0.01, 0.99] fails with the
corresponding validation error and no state change, and the error does not
depend on the store at all (the checks run before any lock is acquired, lines
94–105); moreover *every* rejected `place_order`, for whatever reason, returns
the store exactly as it was (rollback, lines 50–51). -/
theorem C8_validation_and_rollback :
    (∀ s u c sd cs ot p q, sd ≠ "BUY" → sd ≠ "SELL" →
       place_order s u c sd cs ot p q = (s, .error .invalidSide)) ∧
    (∀ s u c sd cs ot p q, (sd = "BUY" ∨ sd = "SELL") → cs ≠ "YES" → cs ≠ "NO" →
       place_order s u c sd cs ot p q = (s, .error .invalidContractSide)) ∧
    (∀ s u c sd cs ot pr q, (sd = "BUY" ∨ sd = "SELL") → (cs = "YES" ∨ cs = "NO") →
       (pr < mkRat 1 100 ∨ mkRat 99 100 < pr) →
       place_order s u c sd cs ot (some pr) q = (s, .error .invalidPrice)) ∧
    (∀ s u c sd cs ot p q e, (place_order s u c sd cs ot p q).2 = .error e →
       (place_order s u c sd cs ot p q).1 = s) := by
  refine ⟨?_, ?_, ?_, ?_⟩
  · intro s u c sd cs ot p q h1 h2
    simp [place_order, h1, h2]
  · intro s u c sd cs ot p q hsd h1 h2
    simp [place_order, hsd, h1, h2]
  · intro s u c sd cs ot pr q hsd hcs hpr
    have hout : price_out_of_range (some pr) = true := by
      rcases hpr with h | h <;> simp [price_out_of_range, h]
    rcases hsd with h | h <;> rcases hcs with h' | h' <;>
      simp [place_order, h, h', hout]
  · intro s u c sd cs ot p q e h
    rcases place_order_cases s u c sd cs ot p q with ⟨oid, s1, hok⟩ | ⟨e', herr⟩
    · rw [hok] at h
      cases h
    · rw [herr]

/-- Witness for C8 at concrete inputs: an invalid side, an invalid contract
side, an out-of-range price, and a business rejection (insufficient funds) are
all rejected with the stated errors and leave the state untouched. -/
theorem C8_validation_and_rollback_witness :
    (("XX" : String) ≠ "BUY" ∧ ("XX" : String) ≠ "SELL" ∧
      place_order state_a 1 1 "XX" "YES" "limit" (some (mkRat 1 2)) 10
        = (state_a, .error .invalidSide)) ∧
    (place_order state_a 1 1 "BUY" "MAYBE" "limit" (some (mkRat 1 2)) 10
        = (state_a, .error .invalidContractSide)) ∧
    (place_order state_a 1 1 "BUY" "YES" "limit" (some (mkRat 2 1)) 10
        = (state_a, .error .invalidPrice)) ∧
    ((place_order state_a 1 1 "BUY" "YES" "limit" (some (mkRat 1 2)) 1000).2
        = .error .insufficientBalance ∧
      (place_order state_a 1 1 "BUY" "YES" "limit" (some (mkRat 1 2)) 1000).1
        = state_a) := by
  refine ⟨⟨by decide, by decide, ?_⟩, ?_, ?_, ⟨by decide, ?_⟩⟩
  · exact C8_validation_and_rollback.1 state_a 1 1 "XX" "YES" "limit"
      (some (mkRat 1 2)) 10 (by decide) (by decide)
  · exact C8_validation_and_rollback.2.1 state_a 1 1 "BUY" "MAYBE" "limit"
      (some (mkRat 1 2)) 10 (by decide) (by decide) (by decide)
  · exact C8_validation_and_rollback.2.2.1 state_a 1 1 "BUY" "YES" "limit"
      (mkRat 2 1) 10 (by decide) (by decide) (by decide)
  · exact C8_validation_and_rollback.2.2.2 state_a 1 1 "BUY" "YES" "limit"
      (some (mkRat 1 2)) 1000 .insufficientBalance (by decide)

/-! ## C10 — BUY market order with no price -/

/-- **C10**.  The public order schema (`OrderBase`) allows `price = None`
(`Optional[Decimal] = Field(None, ge=0, le=1)`), and `place_order` skips the
price-range validation entirely when no price is supplied (line 103 guards it
with `price is not None`).  For a BUY market order without a price, once the
contract is found open and the user exists, the engine evaluates
`int(quantity * price * 100)` with `price = None` (line 130) and raises an
unhandled `TypeError` — not a `ValueError` — and the transaction rolls back
with no state change. -/
theorem C10_market_buy_none_price (s : EngineState) (user_id contract_id : ℕ)
    (contract_side : String) (quantity : ℤ) (ct : ContractRec)
    (hcs : contract_side = "YES" ∨ contract_side = "NO")
    (hc : find_contract s contract_id = some ct) (hopen : ct.status = "open")
    (hu : (lookup_user s user_id).isSome) :
    price_out_of_range none = false ∧
    place_order s user_id contract_id "BUY" contract_side "market" none quantity
      = (s, .error .typeError) := by
  rcases Option.isSome_iff_exists.mp hu with ⟨u, hu'⟩
  refine ⟨rfl, ?_⟩
  rcases hcs with h | h <;>
    simp [place_order, place_order_tx, h, price_out_of_range, hc, hopen, hu']

/-- Witness for C10: in `state_a` (contract 1 open, user 1 present) the BUY
market order with no price fails with the type error and changes nothing. -/
theorem C10_market_buy_none_price_witness :
    ((("YES" : String) = "YES" ∨ ("YES" : String) = "NO") ∧
      find_contract state_a 1 = some { contractId := 1, marketId := 1, status := "open" } ∧
      ({ contractId := 1, marketId := 1, status := "open" : ContractRec }).status = "open" ∧
      (lookup_user state_a 1).isSome) ∧
    (price_out_of_range none = false ∧
      place_order state_a 1 1 "BUY" "YES" "market" none 50
        = (state_a, .error .typeError)) :=
  ⟨⟨by decide, by decide, by decide, by decide⟩,
    C10_market_buy_none_price state_a 1 1 "YES" 50
      { contractId := 1, marketId := 1, status := "open" }
      (by decide) (by decide) (by decide) (by decide)⟩

/-! ## C9 — the transaction/retry manager (`serializable_transaction`, lines 39–72) -/

/-- The keywords of line 55; an error is classified as a concurrency conflict
when its lowercased message contains one of them. -/
def conflict_keywords : List String :=
  ["serialization", "deadlock", "could not serialize", "lock"]

/-- `needle` occurs as a contiguous substring of the haystack. -/
def infix_of (needle : List Char) : List Char → Bool
  | [] => needle.isEmpty
  | c :: rest => needle.isPrefixOf (c :: rest) || infix_of needle rest

/-- Line 54–55: `str(e).lower()` then substring search. -/
def is_conflict_error (msg : List Char) : Bool :=
  conflict_keywords.any (fun k => infix_of k.toList (msg.map Char.toLower))

/-- `self.max_retries` (line 35). -/
def max_retries : ℕ := 3

/-- The backoff delay of line 63, `base_retry_delay * 2 ** attempt + jitter`
with base 0.1 and `jitter = random.uniform(0, 0.05)` supplied as an oracle. -/
def tx_delay (attempt : ℕ) (jitter : ℚ) : ℚ :=
  qadd (qmul (mkRat 1 10) ((2 ^ attempt : ℤ) : ℚ)) jitter

/-- What the generator underlying `serializable_transaction` does next, as
`contextlib` observes it after resuming it or throwing into it. -/
inductive GenStep where
  /-- the generator reached another `yield`. -/
  | yielded
  /-- the generator returned (`StopIteration`). -/
  | stopped
  /-- `raise ValueError("High contention detected. Please try again.")`
  (line 69). -/
  | raisedHighContention
  /-- the bare `raise` of line 72 re-raising the thrown-in exception. -/
  | reRaised (msg : List Char)
deriving DecidableEq, Repr

/-- `gen.throw(e)` at the `yield` of iteration `attempt` of the `for` loop of the generator (lines 45–72): the exception is raised at the `yield`; the
`except` clause rolls back and classifies the lowercased message; a conflict
with `attempt < max_retries - 1` sleeps one backoff delay and `continue`s, so
the `try: yield` of the next iteration makes the generator yield again; a conflict
on the last iteration raises the `ValueError` of line 69; a non-conflict
error is re-raised (line 72).  Returns the delays slept and the step
`contextlib` observes. -/
def gen_throw (attempt : ℕ) (msg : List Char) (jitter : ℚ) : List ℚ × GenStep :=
  if is_conflict_error msg then
    if attempt < max_retries - 1 then ([tx_delay attempt jitter], .yielded)
    else ([], .raisedHighContention)
  else ([], .reRaised msg)

/-- Outcome of one `with self.serializable_transaction(): body` block as the
caller sees it. -/
inductive TxResult (σ : Type) where
  | ok (v : σ)
  /-- the `ValueError` of line 69. -/
  | highContention
  /-- the `RuntimeError` `contextlib` raises when the generator it threw the
  exception into yields again instead of finishing. -/
  | runtimeError
  /-- `contextlib` suppresses the exception when the generator returns after
  the throw; unreachable for this generator. -/
  | suppressed
  /-- an exception re-raised out of the generator. -/
  | propagated (msg : List Char)
deriving DecidableEq, Repr

/-- One `with self.serializable_transaction(): body` block under the
`@contextmanager` protocol: entering the block advances the generator to its
first `yield` (iteration `attempt = 0`); the with-body runs once; on success
the exit resumes the generator, which commits and returns; on an exception
the exit throws it into the generator at that first `yield`, and raises
`RuntimeError` if the generator yields again instead of finishing.  `body` is
the single outcome of the with-body (`error msg` = it raised, after which the
`except` clause of the generator rolls the session back). -/
def serializable_transaction {σ : Type} (body : Except (List Char) σ)
    (jitter : ℚ) : List ℚ × TxResult σ :=
  match body with
  | .ok v => ([], .ok v)
  | .error msg =>
    match gen_throw 0 msg jitter with
    | (ds, .yielded) => (ds, .runtimeError)
    | (ds, .stopped) => (ds, .suppressed)
    | (ds, .raisedHighContention) => (ds, .highContention)
    | (ds, .reRaised m) => (ds, .propagated m)

/-- Modelled from the spec: the retry manager §4.2 describes.  The whole
attempt — body included — re-runs after a rolled-back conflict, up to
`max_retries` attempts with one backoff delay per conflict that has retries
left, `HighContention` after the last conflicting attempt, and immediate
propagation of a non-conflict error.  `body i` is the outcome the body would
have on attempt `i`; `left` counts the attempts still available. -/
def spec_retry_loop {σ : Type} (body : ℕ → Except (List Char) σ)
    (jitter : ℕ → ℚ) : ℕ → ℕ → List ℚ × TxResult σ
  | 0, _ => ([], .highContention)
  | left + 1, attempt =>
    match body attempt with
    | .ok v => ([], .ok v)
    | .error msg =>
      if is_conflict_error msg then
        if left = 0 then ([], .highContention)
        else
          let d := tx_delay attempt (jitter attempt)
          let rest := spec_retry_loop body jitter left (attempt + 1)
          (d :: rest.1, rest.2)
      else ([], .propagated msg)

/-- **C9** (code_bug evidence).  The claim: a store-reported conflict rolls
back and retries with backoff `0.1 · 2^attempt` plus jitter, at most 3
attempts, then `HighContention`; non-conflict errors propagate immediately.
But `serializable_transaction` is a `@contextmanager` *generator* whose retry
loop wraps its `yield`: the conflict exception of the with-body is thrown into the
generator at the first `yield`, the `except` clause rolls back, sleeps one
backoff delay and `continue`s to a second `yield`, upon which `contextlib`
raises `RuntimeError` — the body is never re-run and `HighContention` is dead
code.  Concretely: a with-body whose first run reports a serialization
conflict (and would succeed with 42 on a re-run) fails with the
`RuntimeError` after a single backoff sleep of `0.1 · 2^0 + 0.01 = 0.11`
seconds, where the retry loop of the spec commits 42 after that same single
sleep; a success and a non-conflict error behave as claimed. -/
theorem C9_conflict_never_retries :
    serializable_transaction
        (.error "serialization failure".toList : Except (List Char) ℤ)
        (mkRat 1 100)
      = ([tx_delay 0 (mkRat 1 100)], .runtimeError) ∧
    tx_delay 0 (mkRat 1 100) = mkRat 11 100 ∧
    spec_retry_loop
        (fun i => if i = 0
          then (.error "serialization failure".toList : Except (List Char) ℤ)
          else .ok 42)
        (fun _ => mkRat 1 100) max_retries 0
      = ([tx_delay 0 (mkRat 1 100)], .ok 42) ∧
    serializable_transaction (.ok 42 : Except (List Char) ℤ) (mkRat 1 100)
      = ([], .ok 42) ∧
    serializable_transaction
        (.error "division by zero".toList : Except (List Char) ℤ) (mkRat 1 100)
      = ([], .propagated "division by zero".toList) := by
  refine ⟨by decide, by decide, by decide, rfl, by decide⟩

/-! ## C5 — which resting orders appear in the book and stay matchable -/

/-- Quantity recorded at price level `p` (0 if the level is absent). -/
def level_qty (lv : List (ℚ × ℤ)) (p : ℚ) : ℤ :=
  (find_by Prod.fst p lv).elim 0 Prod.snd

/-- The remaining quantity `o` contributes to price level `p` in the book
aggregation. -/
def contrib (p : ℚ) (o : OrderRec) : ℤ :=
  if 0 < o.quantity - o.filledQuantity ∧ o.price = some p then
    o.quantity - o.filledQuantity
  else 0

theorem level_qty_add_self (p : ℚ) (q : ℤ) (lv : List (ℚ × ℤ)) :
    level_qty (add_level p q lv) p = level_qty lv p + q := by
  induction lv with
  | nil => simp [add_level, level_qty, find_by]
  | cons e t ih =>
    obtain ⟨p', q'⟩ := e
    by_cases he : p' = p
    · subst he
      simp [add_level, level_qty, find_by]
    · simpa [add_level, level_qty, find_by, he] using ih

theorem level_qty_add_ne {p p'' : ℚ} (q : ℤ) (lv : List (ℚ × ℤ)) (hne : p'' ≠ p) :
    level_qty (add_level p q lv) p'' = level_qty lv p'' := by
  induction lv with
  | nil => simp [add_level, level_qty, find_by, Ne.symm hne]
  | cons e t ih =>
    obtain ⟨p', q'⟩ := e
    by_cases he : p' = p
    · subst he
      simp [add_level, level_qty, find_by, Ne.symm hne]
    · by_cases he'' : p' = p''
      · subst he''
        simp [add_level, level_qty, find_by, he]
      · simpa [add_level, level_qty, find_by, he, he''] using ih

theorem add_level_mem {p : ℚ} {q : ℤ} {lv : List (ℚ × ℤ)} {e : ℚ × ℤ}
    (h : e ∈ add_level p q lv) : e.1 = p ∨ e ∈ lv := by
  induction lv with
  | nil => simp [add_level] at h; simp [h]
  | cons f t ih =>
    obtain ⟨p', q'⟩ := f
    by_cases he : p' = p
    · subst he
      rw [add_level, if_pos rfl] at h
      rcases List.mem_cons.mp h with rfl | ht
      · exact .inl rfl
      · exact .inr (List.mem_cons_of_mem _ ht)
    · rw [add_level, if_neg he] at h
      rcases List.mem_cons.mp h with rfl | ht
      · exact .inr (List.mem_cons_self _ _)
      · rcases ih ht with h' | h'
        · exact .inl h'
        · exact .inr (List.mem_cons_of_mem _ h')

theorem add_level_fst_of_mem {p : ℚ} (q : ℤ) {lv : List (ℚ × ℤ)}
    (h : p ∈ lv.map Prod.fst) :
    (add_level p q lv).map Prod.fst = lv.map Prod.fst := by
  induction lv with
  | nil => cases h
  | cons f t ih =>
    obtain ⟨p', q'⟩ := f
    by_cases he : p' = p
    · subst he
      rw [add_level, if_pos rfl]
      simp
    · rw [List.map_cons] at h
      rcases List.mem_cons.mp h with rfl | ht
      · exact absurd rfl he
      · rw [add_level, if_neg he, List.map_cons, List.map_cons, ih ht]

theorem add_level_fst_of_not_mem {p : ℚ} (q : ℤ) {lv : List (ℚ × ℤ)}
    (h : p ∉ lv.map Prod.fst) :
    (add_level p q lv).map Prod.fst = lv.map Prod.fst ++ [p] := by
  induction lv with
  | nil => rfl
  | cons f t ih =>
    obtain ⟨p', q'⟩ := f
    rw [List.map_cons] at h
    have h1 : p ≠ p' := fun hh => h (by rw [hh]; exact List.mem_cons_self _ _)
    have h2 : p ∉ t.map Prod.fst := fun hh => h (List.mem_cons_of_mem _ hh)
    rw [add_level, if_neg (Ne.symm h1), List.map_cons, List.map_cons, ih h2,
      List.cons_append]

theorem add_level_keys_nodup {p : ℚ} (q : ℤ) {lv : List (ℚ × ℤ)}
    (h : (lv.map Prod.fst).Nodup) : ((add_level p q lv).map Prod.fst).Nodup := by
  by_cases hp : p ∈ lv.map Prod.fst
  · rw [add_level_fst_of_mem q hp]; exact h
  · rw [add_level_fst_of_not_mem q hp]
    refine List.Nodup.append h (List.nodup_singleton p) ?_
    intro a ha hpa
    rw [List.mem_singleton] at hpa
    subst hpa
    exact hp ha

theorem build_levels_qty :
    ∀ (os : List OrderRec) (acc lv : List (ℚ × ℤ)),
      build_levels os acc = some lv →
      ∀ p, level_qty lv p = level_qty acc p + (os.map (contrib p)).sum := by
  intro os
  induction os with
  | nil =>
    intro acc lv h p
    rw [build_levels] at h
    cases h
    simp
  | cons o t ih =>
    intro acc lv h p
    rw [build_levels] at h
    split at h
    · next hrem =>
      cases hp : o.price with
      | none => rw [hp] at h; cases h
      | some p' =>
        rw [hp] at h
        have := ih _ _ h p
        by_cases hpp : p' = p
        · rw [hpp] at hp this
          rw [this, level_qty_add_self, List.map_cons, List.sum_cons]
          have hc : contrib p o = o.quantity - o.filledQuantity := by
            rw [contrib, if_pos ⟨hrem, hp⟩]
          rw [hc]
          ring
        · rw [this, level_qty_add_ne _ _ (fun hh => hpp hh.symm), List.map_cons,
            List.sum_cons]
          have hc : contrib p o = 0 := by
            rw [contrib, if_neg]
            intro hcc
            rw [hp] at hcc
            exact hpp (Option.some_injective _ hcc.2)
          rw [hc]
          ring
    · next hrem =>
      have := ih _ _ h p
      rw [this, List.map_cons, List.sum_cons]
      have hc : contrib p o = 0 := by
        rw [contrib, if_neg]
        intro hcc
        exact hrem hcc.1
      rw [hc]
      ring

theorem build_levels_origin :
    ∀ (os : List OrderRec) (acc lv : List (ℚ × ℤ)),
      build_levels os acc = some lv →
      ∀ e ∈ lv, e ∈ acc ∨
        ∃ o ∈ os, o.price = some e.1 ∧ 0 < o.quantity - o.filledQuantity := by
  intro os
  induction os with
  | nil =>
    intro acc lv h e he
    rw [build_levels] at h
    cases h
    exact .inl he
  | cons o t ih =>
    intro acc lv h e he
    rw [build_levels] at h
    split at h
    · next hrem =>
      cases hp : o.price with
      | none => rw [hp] at h; cases h
      | some p' =>
        rw [hp] at h
        rcases ih _ _ h e he with hacc | ⟨o', ho', hp', hr'⟩
        · rcases add_level_mem hacc with h1 | h1
          · exact .inr ⟨o, List.mem_cons_self _ _, by rw [hp, h1], hrem⟩
          · exact .inl h1
        · exact .inr ⟨o', List.mem_cons_of_mem _ ho', hp', hr'⟩
    · next hrem =>
      rcases ih _ _ h e he with hacc | ⟨o', ho', hp', hr'⟩
      · exact .inl hacc
      · exact .inr ⟨o', List.mem_cons_of_mem _ ho', hp', hr'⟩

theorem build_levels_keys_nodup :
    ∀ (os : List OrderRec) (acc lv : List (ℚ × ℤ)),
      (acc.map Prod.fst).Nodup → build_levels os acc = some lv →
      (lv.map Prod.fst).Nodup := by
  intro os
  induction os with
  | nil =>
    intro acc lv hacc h
    rw [build_levels] at h
    cases h
    exact hacc
  | cons o t ih =>
    intro acc lv hacc h
    rw [build_levels] at h
    split at h
    · cases hp : o.price with
      | none => rw [hp] at h; cases h
      | some p' =>
        rw [hp] at h
        exact ih _ _ (add_level_keys_nodup _ hacc) h
    · exact ih _ _ hacc h

theorem contrib_nonneg (p : ℚ) (o : OrderRec) : 0 ≤ contrib p o := by
  rw [contrib]
  split
  · next h => exact h.1.le
  · exact le_refl 0

theorem level_qty_of_mem_nodup {lv : List (ℚ × ℤ)} {p : ℚ} {q : ℤ}
    (hnd : (lv.map Prod.fst).Nodup) (h : (p, q) ∈ lv) : level_qty lv p = q := by
  have := @find_by_of_mem_nodup _ _ _ Prod.fst _ _ hnd h
  simp [level_qty, this]

theorem mem_of_level_qty_pos {lv : List (ℚ × ℤ)} {p : ℚ}
    (h : 0 < level_qty lv p) : (p, level_qty lv p) ∈ lv := by
  rw [level_qty] at h ⊢
  cases hf : find_by Prod.fst p lv with
  | none => rw [hf] at h; cases h
  | some e =>
    obtain ⟨hmem, hkey⟩ := mem_of_find_by hf
    obtain ⟨p', q'⟩ := e
    simp only [Option.elim]
    rw [← hkey]
    exact hmem

theorem level_qty_nil (p : ℚ) : level_qty [] p = 0 := rfl

/-- Characterization of one side of the aggregated book: the quantity of every
level is the total remaining quantity of the orders accepted by the filter at
that price, and every filtered order with remaining quantity appears in a level
at its price. -/
theorem book_levels_spec {orders : List OrderRec} {f : OrderRec → Bool}
    {lv : List (ℚ × ℤ)} (hlv : build_levels (orders.filter f) [] = some lv) :
    (∀ p q, (p, q) ∈ lv →
        q = (orders.map (fun o => if f o then contrib p o else 0)).sum ∧
        ∃ o ∈ orders, f o = true ∧ o.price = some p ∧
          0 < o.quantity - o.filledQuantity) ∧
    (∀ o ∈ orders, f o = true → 0 < o.quantity - o.filledQuantity →
        ∀ p, o.price = some p →
        ∃ q, (p, q) ∈ lv ∧ o.quantity - o.filledQuantity ≤ q) := by
  have hnd : (lv.map Prod.fst).Nodup :=
    build_levels_keys_nodup _ _ _ (by simp) hlv
  have hqty : ∀ p, level_qty lv p
      = (orders.map (fun o => if f o then contrib p o else 0)).sum := by
    intro p
    have := build_levels_qty _ _ _ hlv p
    rw [level_qty_nil, zero_add] at this
    rw [this, sum_map_filter_eq]
  constructor
  · intro p q hmem
    have hq : level_qty lv p = q := level_qty_of_mem_nodup hnd hmem
    refine ⟨by rw [← hq, hqty], ?_⟩
    rcases build_levels_origin _ _ _ hlv _ hmem with habs | ⟨o, ho, hp, hr⟩
    · cases habs
    · obtain ⟨ho', hf⟩ := List.mem_filter.mp ho
      exact ⟨o, ho', hf, hp, hr⟩
  · intro o ho hf hrem p hp
    have hofil : o ∈ orders.filter f := List.mem_filter.mpr ⟨ho, hf⟩
    have hcontrib : contrib p o = o.quantity - o.filledQuantity := by
      rw [contrib, if_pos ⟨hrem, hp⟩]
    have hle : o.quantity - o.filledQuantity ≤ level_qty lv p := by
      have h1 : contrib p o ∈ (orders.filter f).map (contrib p) :=
        List.mem_map_of_mem _ hofil
      have h2 := List.single_le_sum
        (fun x hx => by
          obtain ⟨o', _, rfl⟩ := List.mem_map.mp hx
          exact contrib_nonneg p o') _ h1
      have h3 := build_levels_qty _ _ _ hlv p
      rw [level_qty_nil, zero_add] at h3
      rw [h3, ← hcontrib]
      exact h2
    have hpos : 0 < level_qty lv p := lt_of_lt_of_le hrem hle
    exact ⟨level_qty lv p, mem_of_level_qty_pos hpos, hle⟩

/-- Matching never considers an order whose status is not exactly `"open"`. -/
theorem match_filter_needs_open (inc o : OrderRec) (h : o.status ≠ "open") :
    match_filter inc o = false := by
  rw [match_filter]
  split <;> simp [h]

/-- **C5 (amended)**.  What `get_order_book` actually shows, and which orders
actually stay matchable: a price level's quantity is the summed remaining
quantity of the orders with status exactly `"open"` on that side at that price;
every status-`open` order with remaining quantity is counted at its price; bids
are sorted descending and asks ascending; and an order in any other status —
including `"partially_filled"` with remaining quantity — is excluded both from
the book and from matching. -/
theorem C5_book_open_orders_only (s : EngineState) (cid : ℕ) (cs : String)
    {bids asks : List (ℚ × ℤ)}
    (hbk : get_order_book s cid cs = some (bids, asks)) :
    (∀ p q, (p, q) ∈ bids →
        q = (s.orders.map (fun o =>
          if book_filter cid cs "BUY" o then contrib p o else 0)).sum ∧
        ∃ o ∈ s.orders, book_filter cid cs "BUY" o = true ∧ o.price = some p ∧
          0 < o.quantity - o.filledQuantity) ∧
    (∀ o ∈ s.orders, book_filter cid cs "BUY" o = true →
        0 < o.quantity - o.filledQuantity → ∀ p, o.price = some p →
        ∃ q, (p, q) ∈ bids ∧ o.quantity - o.filledQuantity ≤ q) ∧
    sorted_by (fun a b => decide (b.1 ≤ a.1)) bids ∧
    (∀ p q, (p, q) ∈ asks →
        q = (s.orders.map (fun o =>
          if book_filter cid cs "SELL" o then contrib p o else 0)).sum ∧
        ∃ o ∈ s.orders, book_filter cid cs "SELL" o = true ∧ o.price = some p ∧
          0 < o.quantity - o.filledQuantity) ∧
    (∀ o ∈ s.orders, book_filter cid cs "SELL" o = true →
        0 < o.quantity - o.filledQuantity → ∀ p, o.price = some p →
        ∃ q, (p, q) ∈ asks ∧ o.quantity - o.filledQuantity ≤ q) ∧
    sorted_by (fun a b => decide (a.1 ≤ b.1)) asks ∧
    (∀ inc o, o.status ≠ "open" → match_filter inc o = false) := by
  rw [get_order_book] at hbk
  cases hB : build_levels (s.orders.filter (book_filter cid cs "BUY")) [] with
  | none => rw [hB] at hbk; cases hbk
  | some lvB =>
    cases hS : build_levels (s.orders.filter (book_filter cid cs "SELL")) [] with
    | none => rw [hB, hS] at hbk; cases hbk
    | some lvS =>
      rw [hB, hS] at hbk
      injection hbk with hbk'
      injection hbk' with hbids hasks
      obtain ⟨hlvB1, hlvB2⟩ := book_levels_spec hB
      obtain ⟨hlvS1, hlvS2⟩ := book_levels_spec hS
      have htotB : ∀ a b : ℚ × ℤ,
          (decide (b.1 ≤ a.1)) = true ∨ (decide (a.1 ≤ b.1)) = true := by
        intro a b
        rcases le_total b.1 a.1 with h | h
        · exact .inl (decide_eq_true h)
        · exact .inr (decide_eq_true h)
      have htransB : ∀ a b c : ℚ × ℤ, (decide (b.1 ≤ a.1)) = true →
          (decide (c.1 ≤ b.1)) = true → (decide (c.1 ≤ a.1)) = true := by
        intro a b c h1 h2
        exact decide_eq_true ((of_decide_eq_true h2).trans (of_decide_eq_true h1))
      have htotS : ∀ a b : ℚ × ℤ,
          (decide (a.1 ≤ b.1)) = true ∨ (decide (b.1 ≤ a.1)) = true := by
        intro a b
        rcases le_total a.1 b.1 with h | h
        · exact .inl (decide_eq_true h)
        · exact .inr (decide_eq_true h)
      have htransS : ∀ a b c : ℚ × ℤ, (decide (a.1 ≤ b.1)) = true →
          (decide (b.1 ≤ c.1)) = true → (decide (a.1 ≤ c.1)) = true := by
        intro a b c h1 h2
        exact decide_eq_true ((of_decide_eq_true h1).trans (of_decide_eq_true h2))
      refine ⟨?_, ?_, ?_, ?_, ?_, ?_, ?_⟩
      · intro p q hmem
        exact hlvB1 p q (mem_sort_by.mp (hbids ▸ hmem))
      · intro o ho hf hrem p hp
        obtain ⟨q, hq, hle⟩ := hlvB2 o ho hf hrem p hp
        exact ⟨q, hbids ▸ mem_sort_by.mpr hq, hle⟩
      · rw [← hbids]
        exact sorted_sort_by (fun a b => htotB a b) (fun a b c => htransB a b c) _
      · intro p q hmem
        exact hlvS1 p q (mem_sort_by.mp (hasks ▸ hmem))
      · intro o ho hf hrem p hp
        obtain ⟨q, hq, hle⟩ := hlvS2 o ho hf hrem p hp
        exact ⟨q, hasks ▸ mem_sort_by.mpr hq, hle⟩
      · rw [← hasks]
        exact sorted_sort_by (fun a b => htotS a b) (fun a b c => htransS a b c) _
      · exact fun inc o h => match_filter_needs_open inc o h

/-! ## C4 — the matching algorithm refines price-time-priority greedy matching -/

theorem insert_sorted_perm {α : Type} (le : α → α → Bool) (x : α) (l : List α) :
    List.Perm (insert_sorted le x l) (x :: l) := by
  induction l with
  | nil => exact List.Perm.refl _
  | cons b t ih =>
    rw [insert_sorted]
    split
    · exact List.Perm.refl _
    · exact ((ih.cons b).trans (List.Perm.swap x b t))

theorem sort_by_perm {α : Type} (le : α → α → Bool) (l : List α) :
    List.Perm (sort_by le l) l := by
  induction l with
  | nil => exact List.Perm.refl _
  | cons b t ih =>
    exact (insert_sorted_perm le b (sort_by le t)).trans (ih.cons b)

/-- The identity of an order: every field the matching loop relies on staying
fixed while `filled_quantity`/`status` evolve. -/
def same_core (a b : OrderRec) : Prop :=
  a.orderId = b.orderId ∧ a.userId = b.userId ∧ a.contractId = b.contractId ∧
  a.side = b.side ∧ a.contractSide = b.contractSide ∧ a.price = b.price ∧
  a.quantity = b.quantity

theorem same_core_refl (a : OrderRec) : same_core a a :=
  ⟨rfl, rfl, rfl, rfl, rfl, rfl, rfl⟩

theorem same_core_bump (t : ℤ) (a b : OrderRec) (h : same_core a b) :
    same_core (bump_filled t a) b := h

theorem same_core_trans {a b c : OrderRec} (h1 : same_core a b)
    (h2 : same_core b c) : same_core a c := by
  obtain ⟨a1, a2, a3, a4, a5, a6, a7⟩ := h1
  obtain ⟨b1, b2, b3, b4, b5, b6, b7⟩ := h2
  exact ⟨a1.trans b1, a2.trans b2, a3.trans b3, a4.trans b4, a5.trans b5,
    a6.trans b6, a7.trans b7⟩

theorem bump_filled_orderId (t : ℤ) (a : OrderRec) :
    (bump_filled t a).orderId = a.orderId := rfl

/-- The trade row the source creates for a match, as described by the spec:
the incoming order on its own side, the resting order on the other, at the
resting order's price.  (An eligible resting order always carries a price.) -/
def spec_trade (inc r : OrderRec) (t : ℤ) : TradeRec :=
  if inc.side = "BUY" then
    { buyOrderId := inc.orderId, sellOrderId := r.orderId,
      contractId := inc.contractId, price := r.price.getD 0, quantity := t }
  else
    { buyOrderId := r.orderId, sellOrderId := inc.orderId,
      contractId := inc.contractId, price := r.price.getD 0, quantity := t }

theorem spec_trade_quantity (inc r : OrderRec) (t : ℤ) :
    (spec_trade inc r t).quantity = t := by
  rw [spec_trade]
  split <;> rfl

/-- Modelled from the spec (§4.1, matching algorithm): greedy price-time
consumption of the eligible resting orders, in order; each match trades
`min(remaining incoming, remaining resting)` at the resting order's price; the
loop stops only when the incoming order is exhausted or the eligible list is
consumed; resting orders with nothing left are passed over. -/
inductive GreedyMatch (inc : OrderRec) : ℤ → List OrderRec → List TradeRec → Prop
  | exhausted {rem : ℤ} {rs : List OrderRec} (h : rem ≤ 0) : GreedyMatch inc rem rs []
  | done {rem : ℤ} : GreedyMatch inc rem [] []
  | skip {rem : ℤ} {r : OrderRec} {rs : List OrderRec} {ts : List TradeRec}
      (h : r.quantity - r.filledQuantity ≤ 0) (hrest : GreedyMatch inc rem rs ts) :
      GreedyMatch inc rem (r :: rs) ts
  | fill {rem : ℤ} {r : OrderRec} {rs : List OrderRec} {ts : List TradeRec}
      (h1 : 0 < rem) (h2 : 0 < r.quantity - r.filledQuantity)
      (hrest : GreedyMatch inc
        (rem - min rem (r.quantity - r.filledQuantity)) rs ts) :
      GreedyMatch inc rem (r :: rs)
        (spec_trade inc r (min rem (r.quantity - r.filledQuantity)) :: ts)

/-- Every trade produced by a greedy match is with one of the resting orders of
the list, for its full recorded data. -/
theorem greedy_trades_sourced {inc : OrderRec} :
    ∀ {rem : ℤ} {rs : List OrderRec} {ts : List TradeRec},
      GreedyMatch inc rem rs ts → ∀ t ∈ ts,
      ∃ r ∈ rs, 0 < r.quantity - r.filledQuantity ∧
        0 < t.quantity ∧ t.quantity ≤ r.quantity - r.filledQuantity ∧
        t = spec_trade inc r t.quantity := by
  intro rem rs ts h
  induction h with
  | exhausted h => intro t ht; cases ht
  | done => intro t ht; cases ht
  | skip h hrest ih =>
    intro t ht
    obtain ⟨r, hr, h1, h2, h3, h4⟩ := ih t ht
    exact ⟨r, List.mem_cons_of_mem _ hr, h1, h2, h3, h4⟩
  | fill h1 h2 hrest ih =>
    intro t ht
    rcases List.mem_cons.mp ht with rfl | ht'
    · refine ⟨_, List.mem_cons_self _ _, h2, ?_, ?_, ?_⟩
      · rw [spec_trade_quantity]
        exact lt_min h1 h2
      · rw [spec_trade_quantity]
        exact min_le_right _ _
      · rw [spec_trade_quantity]
    · obtain ⟨r, hr, ha, hb, hc, hd⟩ := ih t ht'
      exact ⟨r, List.mem_cons_of_mem _ hr, ha, hb, hc, hd⟩

theorem update_position_orders (s : EngineState) (u c : ℕ) (cs : String) (qc : ℤ)
    (p : ℚ) : (update_position_concurrent s u c cs qc p).orders = s.orders := by
  rw [update_position_concurrent]
  split
  · split <;> rfl
  · rfl

theorem update_position_users (s : EngineState) (u c : ℕ) (cs : String) (qc : ℤ)
    (p : ℚ) : (update_position_concurrent s u c cs qc p).users = s.users := by
  rw [update_position_concurrent]
  split
  · split <;> rfl
  · rfl

theorem update_position_trades (s : EngineState) (u c : ℕ) (cs : String) (qc : ℤ)
    (p : ℚ) : (update_position_concurrent s u c cs qc p).trades = s.trades := by
  rw [update_position_concurrent]
  split
  · split <;> rfl
  · rfl

theorem update_position_contracts (s : EngineState) (u c : ℕ) (cs : String) (qc : ℤ)
    (p : ℚ) : (update_position_concurrent s u c cs qc p).contracts = s.contracts := by
  rw [update_position_concurrent]
  split
  · split <;> rfl
  · rfl

theorem find_by_isSome_upd {α κ : Type} [DecidableEq κ] {key : α → κ} {k k' : κ}
    {f : α → α} (hf : ∀ a, key (f a) = key a) (l : List α) :
    (find_by key k (upd_by key k' f l)).isSome = (find_by key k l).isSome := by
  by_cases h : k = k'
  · subst h
    rw [find_by_upd_by_self hf l]
    cases find_by key k l <;> rfl
  · rw [find_by_upd_by_ne hf h l]

/-- The effect of `_execute_trade_concurrent` on the store, given both order
rows are present and distinct: one trade row is appended, both orders are
filled by the trade quantity, other orders are untouched, and no user row
appears or disappears. -/
theorem execute_trade_effects {s : EngineState} {id1 id2 : ℕ} {price : ℚ} {t : ℤ}
    {o1 o2 : OrderRec}
    (h1 : find_order s id1 = some o1) (h2 : find_order s id2 = some o2)
    (hne : id1 ≠ id2) :
    (execute_trade_concurrent s id1 id2 price t).trades
      = s.trades ++ [{ buyOrderId := (if o1.side = "BUY" then o1 else o2).orderId,
                       sellOrderId := (if o1.side = "BUY" then o2 else o1).orderId,
                       contractId := o1.contractId, price := price, quantity := t }] ∧
    find_order (execute_trade_concurrent s id1 id2 price t) id1
      = some (bump_filled t o1) ∧
    (∀ oid, oid ≠ id1 → oid ≠ id2 →
      find_order (execute_trade_concurrent s id1 id2 price t) oid
        = find_order s oid) ∧
    (∀ uid, (lookup_user (execute_trade_concurrent s id1 id2 price t) uid).isSome
      = (lookup_user s uid).isSome) := by
  have hbump : ∀ a : OrderRec, (bump_filled t a).orderId = a.orderId := fun a => rfl
  have huid : ∀ u : UserRec,
      ({ u with balance := u.balance + int_cents t price } : UserRec).userId
        = u.userId := fun u => rfl
  rw [execute_trade_concurrent, h1, h2]
  refine ⟨?_, ?_, ?_, ?_⟩
  · rw [update_position_trades, update_position_trades]
    rfl
  · rw [find_order, update_position_orders, update_position_orders]
    show find_by OrderRec.orderId id1
      (upd_by OrderRec.orderId id2 (bump_filled t)
        (upd_by OrderRec.orderId id1 (bump_filled t) s.orders)) = _
    rw [find_by_upd_by_ne hbump hne _, find_by_upd_by_self hbump _]
    rw [find_order] at h1
    rw [h1]
    rfl
  · intro oid hne1 hne2
    rw [find_order, find_order, update_position_orders, update_position_orders]
    show find_by OrderRec.orderId oid
      (upd_by OrderRec.orderId id2 (bump_filled t)
        (upd_by OrderRec.orderId id1 (bump_filled t) s.orders)) = _
    rw [find_by_upd_by_ne hbump hne2 _, find_by_upd_by_ne hbump hne1 _]
  · intro uid
    rw [lookup_user, lookup_user, update_position_users, update_position_users]
    show (find_by UserRec.userId uid
      (upd_by UserRec.userId _ _ s.users)).isSome = _
    rw [find_by_isSome_upd huid s.users]

/-- Master lemma for the matching loop: given a snapshot `rs` of pairwise
distinct resting rows present in the store (all distinct from the incoming
order, whose row is also present, and whose users exist), the loop appends to
the trade log exactly a greedy price-time consumption of `rs`, and advances the
incoming row's fill by exactly the total quantity traded, keeping its identity
fields intact. -/
theorem match_loop_master (inc : OrderRec) :
    ∀ (rs : List OrderRec) (s : EngineState) (cur : OrderRec) (rem : ℤ) (cnt : ℕ),
      find_order s inc.orderId = some cur → same_core cur inc →
      (∀ r ∈ rs, r.orderId ≠ inc.orderId) →
      (∀ r ∈ rs, (lookup_user s r.userId).isSome = true) →
      (∀ r ∈ rs, find_order s r.orderId = some r) →
      (rs.map OrderRec.orderId).Nodup →
      ∃ ts cur',
        (match_order_loop inc.orderId s rs rem cnt).1.trades = s.trades ++ ts ∧
        GreedyMatch inc rem rs ts ∧
        find_order (match_order_loop inc.orderId s rs rem cnt).1 inc.orderId
          = some cur' ∧
        same_core cur' inc ∧
        cur'.filledQuantity = cur.filledQuantity
          + (rem - (match_order_loop inc.orderId s rs rem cnt).2.1) ∧
        (match_order_loop inc.orderId s rs rem cnt).2.1 ≤ rem ∧
        (0 ≤ rem → 0 ≤ (match_order_loop inc.orderId s rs rem cnt).2.1) := by
  intro rs
  induction rs with
  | nil =>
    intro s cur rem cnt hcur hcore hids husers hrows hnd
    refine ⟨[], cur, ?_, GreedyMatch.done, ?_, hcore, ?_, le_refl rem, fun h => h⟩
    · rw [match_order_loop, List.append_nil]
    · rw [match_order_loop]
      exact hcur
    · rw [match_order_loop]
      ring
  | cons r rest ih =>
    intro s cur rem cnt hcur hcore hids husers hrows hnd
    by_cases hrem : rem ≤ 0
    · refine ⟨[], cur, ?_, GreedyMatch.exhausted hrem, ?_, hcore, ?_, ?_, ?_⟩
      · rw [match_order_loop, if_pos hrem, List.append_nil]
      · rw [match_order_loop, if_pos hrem]
        exact hcur
      · rw [match_order_loop, if_pos hrem]
        ring
      · rw [match_order_loop, if_pos hrem]
      · rw [match_order_loop, if_pos hrem]
        exact fun h => h
    · have hrem' : 0 < rem := lt_of_not_le hrem
      have hids' : ∀ x ∈ rest, x.orderId ≠ inc.orderId :=
        fun x hx => hids x (List.mem_cons_of_mem _ hx)
      have husers' : ∀ x ∈ rest, (lookup_user s x.userId).isSome = true :=
        fun x hx => husers x (List.mem_cons_of_mem _ hx)
      have hrows' : ∀ x ∈ rest, find_order s x.orderId = some x :=
        fun x hx => hrows x (List.mem_cons_of_mem _ hx)
      have hnd' : (rest.map OrderRec.orderId).Nodup := by
        rw [List.map_cons, List.nodup_cons] at hnd
        exact hnd.2
      have hnotin : r.orderId ∉ rest.map OrderRec.orderId := by
        rw [List.map_cons, List.nodup_cons] at hnd
        exact hnd.1
      by_cases hfull : r.filledQuantity ≥ r.quantity
      · obtain ⟨ts, cur', h1, h2, h3, h4, h5, h6, h7⟩ :=
          ih s cur rem cnt hcur hcore hids' husers' hrows' hnd'
        refine ⟨ts, cur', ?_, GreedyMatch.skip (by omega) h2, ?_, h4, ?_, ?_, ?_⟩ <;>
          rw [match_order_loop, if_neg hrem, if_pos hfull]
        · exact h1
        · exact h3
        · exact h5
        · exact h6
        · exact h7
      · have havail : 0 < r.quantity - r.filledQuantity := by omega
        have htq : ¬((if rem ≤ r.quantity - r.filledQuantity then rem
            else r.quantity - r.filledQuantity) ≤ 0) := by
          split <;> omega
        obtain ⟨u, hu⟩ := Option.isSome_iff_exists.mp
          (husers r (List.mem_cons_self _ _))
        have hner : inc.orderId ≠ r.orderId :=
          Ne.symm (hids r (List.mem_cons_self _ _))
        have hrrow : find_order s r.orderId = some r :=
          hrows r (List.mem_cons_self _ _)
        set tq : ℤ := if rem ≤ r.quantity - r.filledQuantity then rem
          else r.quantity - r.filledQuantity with htqdef
        have htq_min : tq = min rem (r.quantity - r.filledQuantity) := by
          rw [htqdef, min_def]
        have htq_pos : 0 < tq := by rw [htqdef]; split <;> omega
        have htq_le : tq ≤ rem := by
          rw [htq_min]; exact min_le_left _ _
        set s1 := execute_trade_concurrent s inc.orderId r.orderId
          (r.price.getD 0) tq with hs1def
        obtain ⟨hetr, hecur, heoth, heusr⟩ :=
          @execute_trade_effects s inc.orderId r.orderId (r.price.getD 0) tq _ _
            hcur hrrow hner
        have hcur1 : find_order s1 inc.orderId = some (bump_filled tq cur) := hecur
        have hcore1 : same_core (bump_filled tq cur) inc := same_core_bump tq cur inc hcore
        have husers1 : ∀ x ∈ rest, (lookup_user s1 x.userId).isSome = true :=
          fun x hx => by rw [heusr]; exact husers' x hx
        have hrows1 : ∀ x ∈ rest, find_order s1 x.orderId = some x := by
          intro x hx
          rw [heoth x.orderId (hids' x hx)
            (fun hh => hnotin (hh ▸ List.mem_map_of_mem _ hx))]
          exact hrows' x hx
        obtain ⟨ts, cur', h1, h2, h3, h4, h5, h6, h7⟩ :=
          ih s1 (bump_filled tq cur) (rem - tq) (cnt + 1)
            hcur1 hcore1 hids' husers1 hrows1 hnd'
        have hloop : match_order_loop inc.orderId s (r :: rest) rem cnt
            = match_order_loop inc.orderId s1 rest (rem - tq) (cnt + 1) := by
          rw [match_order_loop, if_neg hrem, if_neg hfull]
          simp only [← htqdef]
          rw [if_neg htq, hu]
        have htrade : ({ buyOrderId := (if cur.side = "BUY" then cur else r).orderId,
                         sellOrderId := (if cur.side = "BUY" then r else cur).orderId,
                         contractId := cur.contractId, price := r.price.getD 0,
                         quantity := tq } : TradeRec) = spec_trade inc r tq := by
          obtain ⟨hid, huid2, hcid, hside, _, _, _⟩ := hcore
          rw [spec_trade]
          by_cases hb : inc.side = "BUY"
          · rw [if_pos hb, if_pos (hside.trans hb), if_pos (hside.trans hb), hid, hcid]
          · rw [if_neg hb, if_neg (fun hh => hb (hside.symm.trans hh)),
              if_neg (fun hh => hb (hside.symm.trans hh)), hid, hcid]
        refine ⟨spec_trade inc r tq :: ts, cur', ?_, ?_, ?_, h4, ?_, ?_, ?_⟩
        · rw [hloop, h1, hetr, htrade, List.append_assoc, List.singleton_append]
        · have := @GreedyMatch.fill inc _ r _ _ hrem' havail
            (htq_min ▸ h2)
          rwa [← htq_min] at this
        · rw [hloop]
          exact h3
        · rw [hloop]
          have hbf : (bump_filled tq cur).filledQuantity
              = cur.filledQuantity + tq := rfl
          rw [h5, hbf]
          ring
        · rw [hloop]
          omega
        · rw [hloop]
          intro h0
          have := h7 (by omega)
          omega

theorem mem_matching_orders {s : EngineState} {inc r : OrderRec} :
    r ∈ matching_orders s inc ↔ r ∈ s.orders ∧ match_filter inc r = true := by
  rw [matching_orders, mem_sort_by, List.mem_filter]

/-- Unpacking the matching filter: scope, status, self-trade exclusion, and the
side/price-compatibility conditions. -/
theorem match_filter_spec {inc r : OrderRec} (h : match_filter inc r = true) :
    r.contractId = inc.contractId ∧ r.contractSide = inc.contractSide ∧
    r.status = "open" ∧ r.userId ≠ inc.userId ∧
    (inc.side = "BUY" → r.side = "SELL" ∧ opt_le r.price inc.price = true) ∧
    (inc.side ≠ "BUY" → r.side = "BUY" ∧ opt_ge r.price inc.price = true) := by
  rw [match_filter] at h
  by_cases hb : inc.side = "BUY"
  · rw [if_pos hb] at h
    simp only [Bool.and_eq_true, decide_eq_true_eq] at h
    obtain ⟨⟨⟨⟨⟨h1, h2⟩, h3⟩, h4⟩, h5⟩, h6⟩ := h
    exact ⟨h1, h2, h4, h6, fun _ => ⟨h3, h5⟩, fun hh => absurd hb hh⟩
  · rw [if_neg hb] at h
    simp only [Bool.and_eq_true, decide_eq_true_eq] at h
    obtain ⟨⟨⟨⟨⟨h1, h2⟩, h3⟩, h4⟩, h5⟩, h6⟩ := h
    exact ⟨h1, h2, h4, h6, fun hh => absurd hh hb, fun _ => ⟨h3, h5⟩⟩

theorem match_le_total (inc : OrderRec) (a b : OrderRec) :
    match_le inc a b = true ∨ match_le inc b a = true := by
  rw [match_le, match_le]
  split <;>
    simp only [Bool.or_eq_true, Bool.and_eq_true, decide_eq_true_eq] <;>
    rcases lt_trichotomy (a.price.getD 0) (b.price.getD 0) with h | h | h
  · exact .inl (.inl h)
  · rcases le_total a.createdAt b.createdAt with hc | hc
    · exact .inl (.inr ⟨h, hc⟩)
    · exact .inr (.inr ⟨h.symm, hc⟩)
  · exact .inr (.inl h)
  · exact .inr (.inl h)
  · rcases le_total a.createdAt b.createdAt with hc | hc
    · exact .inl (.inr ⟨h, hc⟩)
    · exact .inr (.inr ⟨h.symm, hc⟩)
  · exact .inl (.inl h)

theorem match_le_trans (inc : OrderRec) (a b c : OrderRec)
    (h1 : match_le inc a b = true) (h2 : match_le inc b c = true) :
    match_le inc a c = true := by
  rw [match_le] at h1 h2 ⊢
  by_cases hb : inc.side = "BUY"
  · rw [if_pos hb] at h1 h2 ⊢
    simp only [Bool.or_eq_true, Bool.and_eq_true, decide_eq_true_eq] at h1 h2 ⊢
    rcases h1 with h1 | ⟨h1e, h1c⟩ <;> rcases h2 with h2 | ⟨h2e, h2c⟩
    · exact .inl (h1.trans h2)
    · exact .inl (lt_of_lt_of_eq h1 h2e)
    · exact .inl (lt_of_eq_of_lt h1e h2)
    · exact .inr ⟨h1e.trans h2e, h1c.trans h2c⟩
  · rw [if_neg hb] at h1 h2 ⊢
    simp only [Bool.or_eq_true, Bool.and_eq_true, decide_eq_true_eq] at h1 h2 ⊢
    rcases h1 with h1 | ⟨h1e, h1c⟩ <;> rcases h2 with h2 | ⟨h2e, h2c⟩
    · exact .inl (h2.trans h1)
    · exact .inl (lt_of_eq_of_lt h2e.symm h1)
    · exact .inl (lt_of_lt_of_eq h2 h1e.symm)
    · exact .inr ⟨h1e.trans h2e, h1c.trans h2c⟩

theorem matching_orders_sorted (s : EngineState) (inc : OrderRec) :
    sorted_by (match_le inc) (matching_orders s inc) :=
  sorted_sort_by (match_le_total inc) (match_le_trans inc) _

theorem set_order_status_trades (s : EngineState) (oid : ℕ) (st : String) :
    (set_order_status s oid st).trades = s.trades := rfl

theorem credit_user_trades (s : EngineState) (uid : ℕ) (amt : ℤ) :
    (credit_user s uid amt).trades = s.trades := rfl

/-- **C4**.  The matching step of `_match_order_concurrent`: the eligible set
is exactly the resting orders accepted by the code's filter (same contract and
contract side, opposite side, status `open`, compatible price, different user);
it is consumed in price-time-priority order (ascending price for an incoming
BUY, descending for an incoming SELL, earlier `created_at` first); and the
trades appended by the whole call are a greedy consumption of that sorted list
— each trade at the resting order's price for `min(remaining incoming,
remaining resting)`, stopping only when the incoming order is exhausted or no
eligible resting order remains.  No trade pairs a user with themselves. -/
theorem C4_price_time_priority (s : EngineState) (inc : OrderRec)
    (hrow : find_order s inc.orderId = some inc)
    (hnd : (s.orders.map OrderRec.orderId).Nodup)
    (husers : ∀ r ∈ s.orders, match_filter inc r = true →
      (lookup_user s r.userId).isSome = true) :
    (∀ r, r ∈ matching_orders s inc ↔ r ∈ s.orders ∧ match_filter inc r = true) ∧
    sorted_by (match_le inc) (matching_orders s inc) ∧
    (∀ r ∈ matching_orders s inc,
       r.contractId = inc.contractId ∧ r.contractSide = inc.contractSide ∧
       r.status = "open" ∧ r.userId ≠ inc.userId ∧
       (inc.side = "BUY" → r.side = "SELL" ∧ opt_le r.price inc.price = true) ∧
       (inc.side ≠ "BUY" → r.side = "BUY" ∧ opt_ge r.price inc.price = true)) ∧
    (∃ ts,
      (match_order_concurrent s inc).1.trades = s.trades ++ ts ∧
      GreedyMatch inc (inc.quantity - inc.filledQuantity)
        (matching_orders s inc) ts) := by
  have hmem : ∀ r, r ∈ matching_orders s inc ↔
      r ∈ s.orders ∧ match_filter inc r = true := fun r => mem_matching_orders
  have hspec : ∀ r ∈ matching_orders s inc,
      r.contractId = inc.contractId ∧ r.contractSide = inc.contractSide ∧
      r.status = "open" ∧ r.userId ≠ inc.userId ∧
      (inc.side = "BUY" → r.side = "SELL" ∧ opt_le r.price inc.price = true) ∧
      (inc.side ≠ "BUY" → r.side = "BUY" ∧ opt_ge r.price inc.price = true) :=
    fun r hr => match_filter_spec ((hmem r).mp hr).2
  have hincmem : inc ∈ s.orders := (mem_of_find_by hrow).1
  have hside_ne : ∀ r ∈ matching_orders s inc, r.side ≠ inc.side := by
    intro r hr
    obtain ⟨_, _, _, _, hB, hS⟩ := hspec r hr
    by_cases hb : inc.side = "BUY"
    · rw [(hB hb).1, hb]
      decide
    · rw [(hS hb).1]
      exact fun hh => hb hh.symm
  have hids : ∀ r ∈ matching_orders s inc, r.orderId ≠ inc.orderId := by
    intro r hr heq
    have hrmem : r ∈ s.orders := ((hmem r).mp hr).1
    have : r = inc := List.inj_on_of_nodup_map hnd hrmem hincmem heq
    exact hside_ne r hr (by rw [this])
  have husers' : ∀ r ∈ matching_orders s inc,
      (lookup_user s r.userId).isSome = true := by
    intro r hr
    obtain ⟨h1, h2⟩ := (hmem r).mp hr
    exact husers r h1 h2
  have hrows : ∀ r ∈ matching_orders s inc, find_order s r.orderId = some r := by
    intro r hr
    exact find_by_of_mem_nodup hnd ((hmem r).mp hr).1
  have hnd' : ((matching_orders s inc).map OrderRec.orderId).Nodup := by
    have hsub : List.Sublist
        ((s.orders.filter (match_filter inc)).map OrderRec.orderId)
        (s.orders.map OrderRec.orderId) :=
      (List.filter_sublist _).map _
    have h1 : ((s.orders.filter (match_filter inc)).map OrderRec.orderId).Nodup :=
      hsub.nodup hnd
    have hperm := (sort_by_perm (match_le inc)
      (s.orders.filter (match_filter inc))).map OrderRec.orderId
    rw [matching_orders]
    exact (List.Perm.nodup_iff hperm).mpr h1
  refine ⟨hmem, matching_orders_sorted s inc, hspec, ?_⟩
  simp only [match_order_concurrent]
  by_cases hrem : inc.quantity - inc.filledQuantity ≤ 0
  · rw [if_pos hrem]
    exact ⟨[], by rw [List.append_nil], GreedyMatch.exhausted hrem⟩
  · rw [if_neg hrem]
    obtain ⟨ts, cur', h1, h2, h3, h4, h5, h6, h7⟩ :=
      match_loop_master inc (matching_orders s inc) s inc
        (inc.quantity - inc.filledQuantity) 0 hrow (same_core_refl inc)
        hids husers' hrows hnd'
    refine ⟨ts, ?_, h2⟩
    rw [h3]
    split
    · next h => exact Option.noConfusion h
    · next o h =>
      split
      · split
        · rw [credit_user_trades, set_order_status_trades]
          exact h1
        · rw [set_order_status_trades]
          exact h1
      · split
        · split
          · rw [credit_user_trades, set_order_status_trades]
            exact h1
          · rw [set_order_status_trades]
            exact h1
        · split
          · rw [credit_user_trades]
            exact h1
          · exact h1

/-- User 1 holds 50 YES shares of contract 1; user 2 has 10000 minor units. -/
def state_b : EngineState :=
  { users := [{ userId := 1, balance := 1000 }, { userId := 2, balance := 10000 }],
    contracts := [{ contractId := 1, marketId := 1, status := "open" }],
    orders := [],
    positions := [{ userId := 1, contractId := 1, contractSide := "YES", quantity := 50,
                    avgPrice := mkRat 1 2, realisedPnl := 0, isActive := true }],
    trades := [], nextOrderId := 1, nextTime := 0 }

/-- `state_b` after user 1 places SELL 50 @ $0.60 YES (rests on the book). -/
def state_b1 : EngineState :=
  (place_order state_b 1 1 "SELL" "YES" "limit" (some (mkRat 3 5)) 50).1

/-- `state_b1` after user 2 places BUY 100 @ $0.60 YES: one trade for 50 shares
executes and the BUY order rests with 50 remaining, status `partially_filled`. -/
def state_b2 : EngineState :=
  (place_order state_b1 2 1 "BUY" "YES" "limit" (some (mkRat 3 5)) 100).1

/-- An incoming SELL probe by user 1 at $0.60 against `state_b2`. -/
def probe_sell : OrderRec :=
  { orderId := 3, userId := 1, contractId := 1, side := "SELL", contractSide := "YES",
    orderType := "limit", price := some (mkRat 3 5), quantity := 10,
    filledQuantity := 0, status := "open", createdAt := 2 }

/-- **C5 (counterexample)**.  The claim: every order with status `open` *or*
`partially_filled` and remaining quantity appears in the order book at its
price and stays eligible to match.  In `state_b2` the resting BUY order 2 is
`partially_filled` with 50 shares remaining at $0.60 — yet `get_order_book`
shows an empty book (the claim demands a bid level (0.60, 50)), and an
incoming SELL at $0.60 finds no matching order at all. -/
theorem C5_partially_filled_is_invisible :
    (∃ o ∈ state_b2.orders, o.orderId = 2 ∧ o.side = "BUY" ∧ o.contractId = 1 ∧
      o.contractSide = "YES" ∧ o.status = "partially_filled" ∧
      o.price = some (mkRat 3 5) ∧ o.quantity - o.filledQuantity = 50) ∧
    get_order_book state_b2 1 "YES" = some ([], []) ∧
    matching_orders state_b2 probe_sell = [] := by
  decide

/-- Witness for the amended C5 at a concrete book: in `state_a1` the book for
(contract 1, YES) has the single bid level (0.50, 100), and the
characterization theorem applies to it. -/
theorem C5_book_open_orders_only_witness :
    get_order_book state_a1 1 "YES" = some ([(mkRat 1 2, 100)], []) ∧
    sorted_by (fun a b => decide (b.1 ≤ a.1)) [((mkRat 1 2 : ℚ), (100 : ℤ))] ∧
    (∀ o ∈ state_a1.orders, book_filter 1 "YES" "BUY" o = true →
        0 < o.quantity - o.filledQuantity → ∀ p, o.price = some p →
        ∃ q, (p, q) ∈ [((mkRat 1 2 : ℚ), (100 : ℤ))] ∧
          o.quantity - o.filledQuantity ≤ q) := by
  have hbk : get_order_book state_a1 1 "YES"
      = some ([(mkRat 1 2, 100)], ([] : List (ℚ × ℤ))) := by decide
  exact ⟨hbk, (C5_book_open_orders_only state_a1 1 "YES" hbk).2.2.1,
    (C5_book_open_orders_only state_a1 1 "YES" hbk).2.1⟩

/-- The resting SELL order of `state_b1`, as a record. -/
def resting_w : OrderRec :=
  { orderId := 1, userId := 1, contractId := 1, side := "SELL", contractSide := "YES",
    orderType := "limit", price := some (mkRat 3 5), quantity := 50,
    filledQuantity := 0, status := "open", createdAt := 0 }

/-- A freshly inserted BUY limit order by user 2 (the incoming order of the C4
witness scenario). -/
def order_w : OrderRec :=
  { orderId := 2, userId := 2, contractId := 1, side := "BUY", contractSide := "YES",
    orderType := "limit", price := some (mkRat 3 5), quantity := 100,
    filledQuantity := 0, status := "open", createdAt := 1 }

/-- A store holding the resting SELL and the just-flushed incoming BUY. -/
def state_w : EngineState :=
  { users := [{ userId := 1, balance := 1000 }, { userId := 2, balance := 4000 }],
    contracts := [{ contractId := 1, marketId := 1, status := "open" }],
    orders := [resting_w, order_w],
    positions := [{ userId := 1, contractId := 1, contractSide := "YES", quantity := 50,
                    avgPrice := mkRat 1 2, realisedPnl := 0, isActive := true }],
    trades := [], nextOrderId := 3, nextTime := 2 }

/-- Witness for C4 at the concrete matching scenario of `state_w`. -/
theorem C4_price_time_priority_witness :
    (find_order state_w order_w.orderId = some order_w ∧
      (state_w.orders.map OrderRec.orderId).Nodup ∧
      (∀ r ∈ state_w.orders, match_filter order_w r = true →
        (lookup_user state_w r.userId).isSome = true)) ∧
    sorted_by (match_le order_w) (matching_orders state_w order_w) ∧
    (∀ r, r ∈ matching_orders state_w order_w ↔
      r ∈ state_w.orders ∧ match_filter order_w r = true) :=
  ⟨⟨by decide, by decide, by decide⟩,
    (C4_price_time_priority state_w order_w (by decide) (by decide) (by decide)).2.1,
    (C4_price_time_priority state_w order_w (by decide) (by decide) (by decide)).1⟩

theorem opt_le_none_right (a : Option ℚ) : opt_le a none = false := by
  cases a <;> rfl

theorem opt_ge_none_right (a : Option ℚ) : opt_ge a none = false := by
  cases a <;> rfl

/-- The incoming market BUY of the C6 scenario: recorded price $0.50. -/
def market_buy_w : OrderRec :=
  { orderId := 2, userId := 2, contractId := 1, side := "BUY", contractSide := "YES",
    orderType := "market", price := some (mkRat 1 2), quantity := 100,
    filledQuantity := 0, status := "open", createdAt := 1 }

/-- **C6 (counterexample)**.  The claim: an order with `order_type = market` is
eligible against any resting opposite-side order of another user regardless of
price.  In `state_b1` there is a live resting SELL at $0.60 from user 1, yet
the incoming market BUY by user 2 with recorded price $0.50 matches nothing:
the filter rejects the resting order (price bound 0.60 ≤ 0.50 fails) and the
whole `place_order` call executes zero trades. -/
theorem C6_market_order_not_exempt_from_price_bound :
    (∃ r ∈ state_b1.orders, r.orderId = 1 ∧ r.side = "SELL" ∧ r.contractId = 1 ∧
      r.contractSide = "YES" ∧ r.status = "open" ∧ r.userId = 1 ∧
      r.price = some (mkRat 3 5) ∧ r.quantity - r.filledQuantity = 50) ∧
    market_buy_w.orderType = "market" ∧ market_buy_w.userId = 2 ∧
    (∀ r ∈ state_b1.orders, match_filter market_buy_w r = false) ∧
    (place_order state_b1 2 1 "BUY" "YES" "market" (some (mkRat 1 2)) 100).1.trades
      = [] := by
  decide

/-- **C6 (amended)**.  Market orders get no special treatment from the
matching condition: the filter never reads `order_type`; eligibility always
requires both orders to carry prices satisfying the usual bound (resting ≤
incoming for a BUY, resting ≥ incoming for a SELL); and an incoming order with
no recorded price is eligible against nothing (the SQL `NULL` comparison). -/
theorem C6_matching_condition_ignores_order_type :
    (∀ (inc r : OrderRec) (t : String),
      match_filter { inc with orderType := t } r = match_filter inc r) ∧
    (∀ inc r : OrderRec, match_filter inc r = true →
      ∃ rp ip, r.price = some rp ∧ inc.price = some ip ∧
        (inc.side = "BUY" → rp ≤ ip) ∧ (inc.side ≠ "BUY" → ip ≤ rp)) ∧
    (∀ (s : EngineState) (inc : OrderRec), inc.price = none →
      matching_orders s inc = []) := by
  refine ⟨?_, ?_, ?_⟩
  · intro inc r t
    rfl
  · intro inc r h
    obtain ⟨_, _, _, _, hB, hS⟩ := match_filter_spec h
    by_cases hb : inc.side = "BUY"
    · obtain ⟨_, hle⟩ := hB hb
      cases hrp : r.price with
      | none => rw [hrp] at hle; cases hle
      | some rp =>
        cases hip : inc.price with
        | none => rw [hrp, hip] at hle; cases hle
        | some ip =>
          rw [hrp, hip, opt_le] at hle
          exact ⟨rp, ip, rfl, rfl, fun _ => of_decide_eq_true hle,
            fun hh => absurd hb hh⟩
    · obtain ⟨_, hge⟩ := hS hb
      cases hrp : r.price with
      | none => rw [hrp] at hge; cases hge
      | some rp =>
        cases hip : inc.price with
        | none => rw [hrp, hip] at hge; cases hge
        | some ip =>
          rw [hrp, hip, opt_ge] at hge
          exact ⟨rp, ip, rfl, rfl, fun hh => absurd hh hb,
            fun _ => of_decide_eq_true hge⟩
  · intro s inc hnone
    rw [matching_orders]
    have hfil : s.orders.filter (match_filter inc) = [] := by
      rw [List.filter_eq_nil_iff]
      intro r hr hmf
      obtain ⟨_, _, _, _, hB, hS⟩ := match_filter_spec hmf
      by_cases hb : inc.side = "BUY"
      · obtain ⟨_, hle⟩ := hB hb
        rw [hnone, opt_le_none_right] at hle
        cases hle
      · obtain ⟨_, hge⟩ := hS hb
        rw [hnone, opt_ge_none_right] at hge
        cases hge
    rw [hfil]
    rfl

/-- Witness for the amended C6: a market BUY at $0.60 *is* eligible against the
resting SELL at $0.60 (same price bound as a limit order), and the price bound
facts follow from the theorem. -/
theorem C6_matching_condition_ignores_order_type_witness :
    match_filter market_buy_w resting_w = false ∧
    (match_filter { market_buy_w with price := some (mkRat 3 5) } resting_w
      = true) ∧
    (∃ rp ip, resting_w.price = some rp ∧
      ({ market_buy_w with price := some (mkRat 3 5) } : OrderRec).price = some ip ∧
      (({ market_buy_w with price := some (mkRat 3 5) } : OrderRec).side = "BUY" →
        rp ≤ ip) ∧
      (({ market_buy_w with price := some (mkRat 3 5) } : OrderRec).side ≠ "BUY" →
        ip ≤ rp)) :=
  ⟨by decide, by decide,
    C6_matching_condition_ignores_order_type.2.1
      { market_buy_w with price := some (mkRat 3 5) } resting_w (by decide)⟩

/-! ## C7 — no negative balances or positions in reachable states -/

/-- The validated price domain of the data model: absent, or between $0.01 and
$0.99 (every stored price passed `place_order`'s range check). -/
def price_in_range (p : Option ℚ) : Bool :=
  match p with
  | none => true
  | some q => decide (mkRat 1 100 ≤ q) && decide (q ≤ mkRat 99 100)

/-- Well-formedness of a store, per the data model: non-negative balances,
non-negative position quantities and cost bases, stored prices in the
validated range, primary-key uniqueness for users and orders, and the order-id
sequence ahead of every stored order. -/
def Wf (s : EngineState) : Prop :=
  (∀ u ∈ s.users, 0 ≤ u.balance) ∧
  (∀ p ∈ s.positions, 0 ≤ p.quantity ∧ 0 ≤ p.avgPrice) ∧
  (∀ o ∈ s.orders, price_in_range o.price = true) ∧
  (s.users.map UserRec.userId).Nodup ∧
  (s.orders.map OrderRec.orderId).Nodup ∧
  (∀ o ∈ s.orders, o.orderId < s.nextOrderId)

theorem int_cents_nonneg {q : ℤ} {p : ℚ} (hq : 0 ≤ q) (hp : 0 ≤ p) :
    0 ≤ int_cents q p := by
  rw [int_cents]
  refine Int.tdiv_nonneg ?_ (by exact_mod_cast Nat.zero_le _)
  have hnum : 0 ≤ p.num := Rat.num_nonneg.mpr hp
  positivity

theorem price_in_range_nonneg {p : Option ℚ} (h : price_in_range p = true) :
    0 ≤ p.getD 0 := by
  cases p with
  | none => exact le_refl 0
  | some q =>
    rw [price_in_range, Bool.and_eq_true, decide_eq_true_eq, decide_eq_true_eq] at h
    calc (0 : ℚ) ≤ mkRat 1 100 := by decide
    _ ≤ q := h.1

/-- `credit_user` with a non-negative amount preserves well-formedness. -/
theorem wf_credit_nonneg {s : EngineState} {uid : ℕ} {amt : ℤ}
    (hwf : Wf s) (hamt : 0 ≤ amt) : Wf (credit_user s uid amt) := by
  obtain ⟨hbal, hpos, hpr, hund, hond, hbound⟩ := hwf
  refine ⟨?_, hpos, hpr, ?_, hond, hbound⟩
  · intro u hu
    rw [credit_user, upd_user] at hu
    simp only [upd_by, List.mem_map] at hu
    obtain ⟨u0, hu0, rfl⟩ := hu
    split
    · have := hbal u0 hu0
      simp only
      omega
    · exact hbal u0 hu0
  · rw [credit_user, upd_user]
    show ((upd_by UserRec.userId uid (fun u => ({ u with balance := u.balance + amt } : UserRec)) s.users).map UserRec.userId).Nodup
    rw [upd_by_map_key (f := fun u => ({ u with balance := u.balance + amt } : UserRec)) (fun u => rfl)]
    exact hund

/-- Debiting the *found* user row by a guarded amount preserves
well-formedness (the guard checked the same row the update hits, because user
ids are unique). -/
theorem wf_debit_guarded {s : EngineState} {uid : ℕ} {required : ℤ} {u : UserRec}
    (hwf : Wf s) (hfound : lookup_user s uid = some u)
    (hguard : required ≤ u.balance) : Wf (credit_user s uid (-required)) := by
  obtain ⟨hbal, hpos, hpr, hund, hond, hbound⟩ := hwf
  obtain ⟨humem, hukey⟩ := mem_of_find_by hfound
  refine ⟨?_, hpos, hpr, ?_, hond, hbound⟩
  · intro u' hu'
    rw [credit_user, upd_user] at hu'
    simp only [upd_by, List.mem_map] at hu'
    obtain ⟨u0, hu0, rfl⟩ := hu'
    split
    · next hk =>
      have : u0 = u := List.inj_on_of_nodup_map hund hu0 humem (hk.trans hukey.symm)
      subst this
      simp only
      omega
    · exact hbal u0 hu0
  · rw [credit_user, upd_user]
    show ((upd_by UserRec.userId uid (fun u => ({ u with balance := u.balance + -required } : UserRec)) s.users).map UserRec.userId).Nodup
    rw [upd_by_map_key (f := fun u => ({ u with balance := u.balance + -required } : UserRec)) (fun u => rfl)]
    exact hund

/-- Appending a trade row does not affect well-formedness. -/
theorem wf_trades_append (s : EngineState) (ts : List TradeRec) (h : Wf s) :
    Wf { s with trades := s.trades ++ ts } := h

/-- Filling an order preserves well-formedness (`bump_filled` keeps the id and
the price). -/
theorem wf_upd_order_bump {s : EngineState} (oid : ℕ) (t : ℤ) (hwf : Wf s) :
    Wf (upd_order s oid (bump_filled t)) := by
  obtain ⟨hbal, hpos, hpr, hund, hond, hbound⟩ := hwf
  refine ⟨hbal, hpos, ?_, hund, ?_, ?_⟩
  · intro o ho
    rw [upd_order] at ho
    simp only [upd_by, List.mem_map] at ho
    obtain ⟨o0, ho0, rfl⟩ := ho
    split
    · exact hpr o0 ho0
    · exact hpr o0 ho0
  · rw [upd_order]
    show ((upd_by OrderRec.orderId oid (bump_filled t) s.orders).map OrderRec.orderId).Nodup
    rw [@upd_by_map_key _ _ _ OrderRec.orderId _ (bump_filled t) (fun o => rfl) _]
    exact hond
  · intro o ho
    rw [upd_order] at ho
    simp only [upd_by, List.mem_map] at ho
    obtain ⟨o0, ho0, rfl⟩ := ho
    split
    · exact hbound o0 ho0
    · exact hbound o0 ho0

/-- `_update_position_concurrent` preserves well-formedness whenever the trade
price is non-negative. -/
theorem wf_update_position {s : EngineState} {u c : ℕ} {cs : String} {qc : ℤ}
    {p : ℚ} (hwf : Wf s) (hp : 0 ≤ p) :
    Wf (update_position_concurrent s u c cs qc p) := by
  obtain ⟨hbal, hpos, hpr, hund, hond, hbound⟩ := hwf
  rw [update_position_concurrent]
  split
  · split
    · next hqc =>
      refine ⟨hbal, ?_, hpr, hund, hond, hbound⟩
      intro pos hmem
      simp only [List.mem_append, List.mem_singleton] at hmem
      rcases hmem with h | rfl
      · exact hpos pos h
      · exact ⟨le_of_lt hqc, hp⟩
    · exact ⟨hbal, hpos, hpr, hund, hond, hbound⟩
  · refine ⟨hbal, ?_, hpr, hund, hond, hbound⟩
    intro pos hmem
    rw [upd_position] at hmem
    simp only [upd_by, List.mem_map] at hmem
    obtain ⟨p0, hp0, rfl⟩ := hmem
    obtain ⟨hq0, ha0⟩ := hpos p0 hp0
    split
    · next hk =>
      split
      · next hqc =>
        constructor
        · simp only
          omega
        · simp only
          rw [qdiv_int_eq, qadd_eq, qmul_eq, qmul_eq]
          have hden : (0 : ℚ) < ((p0.quantity + qc : ℤ) : ℚ) := by
            exact_mod_cast by omega
          refine div_nonneg ?_ hden.le
          have h1 : (0 : ℚ) ≤ (p0.quantity : ℚ) := by exact_mod_cast hq0
          have h2 : (0 : ℚ) ≤ (qc : ℚ) := by exact_mod_cast by omega
          positivity
      · next hqc =>
        split
        · exact ⟨le_refl 0, ha0⟩
        · next hsell =>
          constructor
          · simp only
            rw [not_le] at hsell
            omega
          · exact ha0
    · exact hpos p0 hp0

/-- `_execute_trade_concurrent` preserves well-formedness whenever the trade
price and quantity are non-negative. -/
theorem wf_execute_trade {s : EngineState} {id1 id2 : ℕ} {price : ℚ} {t : ℤ}
    (hwf : Wf s) (hp : 0 ≤ price) (ht : 0 ≤ t) :
    Wf (execute_trade_concurrent s id1 id2 price t) := by
  rw [execute_trade_concurrent]
  split
  · refine wf_update_position (wf_update_position ?_ hp) hp
    refine wf_credit_nonneg ?_ (int_cents_nonneg ht hp)
    refine wf_upd_order_bump _ _ (wf_upd_order_bump _ _ ?_)
    exact wf_trades_append s _ hwf
  · exact hwf

theorem wf_set_order_status {s : EngineState} (oid : ℕ) (st : String) (hwf : Wf s) :
    Wf (set_order_status s oid st) := by
  obtain ⟨hbal, hpos, hpr, hund, hond, hbound⟩ := hwf
  refine ⟨hbal, hpos, ?_, hund, ?_, ?_⟩
  · intro o ho
    rw [set_order_status, upd_order] at ho
    simp only [upd_by, List.mem_map] at ho
    obtain ⟨o0, ho0, rfl⟩ := ho
    split
    · exact hpr o0 ho0
    · exact hpr o0 ho0
  · rw [set_order_status, upd_order]
    show ((upd_by OrderRec.orderId oid
      (fun o => ({ o with status := st } : OrderRec)) s.orders).map
        OrderRec.orderId).Nodup
    rw [@upd_by_map_key _ _ _ OrderRec.orderId _
      (fun o => ({ o with status := st } : OrderRec)) (fun o => rfl) _]
    exact hond
  · intro o ho
    rw [set_order_status, upd_order] at ho
    simp only [upd_by, List.mem_map] at ho
    obtain ⟨o0, ho0, rfl⟩ := ho
    split
    · exact hbound o0 ho0
    · exact hbound o0 ho0

/-- Well-formedness and incoming-row tracking through the matching loop: the
loop preserves `Wf`, and the incoming row's fill grows by exactly the traded
quantity (`rem - rem'`), which is non-negative and bounded by `rem`. -/
theorem match_loop_wf (oid : ℕ) :
    ∀ (rs : List OrderRec) (s : EngineState) (cur : OrderRec) (rem : ℤ) (cnt : ℕ),
      Wf s →
      (∀ r ∈ rs, price_in_range r.price = true) →
      find_order s oid = some cur →
      (∀ r ∈ rs, r.orderId ≠ oid) →
      (∀ r ∈ rs, find_order s r.orderId = some r) →
      (rs.map OrderRec.orderId).Nodup →
      Wf (match_order_loop oid s rs rem cnt).1 ∧
      ∃ cur', find_order (match_order_loop oid s rs rem cnt).1 oid = some cur' ∧
        same_core cur' cur ∧
        cur'.filledQuantity = cur.filledQuantity
          + (rem - (match_order_loop oid s rs rem cnt).2.1) ∧
        (match_order_loop oid s rs rem cnt).2.1 ≤ rem ∧
        (0 ≤ rem → 0 ≤ (match_order_loop oid s rs rem cnt).2.1) := by
  intro rs
  induction rs with
  | nil =>
    intro s cur rem cnt hwf hpr hcur hids hrows hnd
    rw [match_order_loop]
    exact ⟨hwf, cur, hcur, same_core_refl cur, by ring, le_refl rem, fun h => h⟩
  | cons r rest ih =>
    intro s cur rem cnt hwf hpr hcur hids hrows hnd
    have hpr' : ∀ x ∈ rest, price_in_range x.price = true :=
      fun x hx => hpr x (List.mem_cons_of_mem _ hx)
    have hids' : ∀ x ∈ rest, x.orderId ≠ oid :=
      fun x hx => hids x (List.mem_cons_of_mem _ hx)
    have hrows' : ∀ x ∈ rest, find_order s x.orderId = some x :=
      fun x hx => hrows x (List.mem_cons_of_mem _ hx)
    have hnd' : (rest.map OrderRec.orderId).Nodup := by
      rw [List.map_cons, List.nodup_cons] at hnd
      exact hnd.2
    have hnotin : r.orderId ∉ rest.map OrderRec.orderId := by
      rw [List.map_cons, List.nodup_cons] at hnd
      exact hnd.1
    by_cases hrem : rem ≤ 0
    · rw [match_order_loop, if_pos hrem]
      exact ⟨hwf, cur, hcur, same_core_refl cur, by ring, le_refl rem, fun h => h⟩
    · by_cases hfull : r.filledQuantity ≥ r.quantity
      · rw [match_order_loop, if_neg hrem, if_pos hfull]
        exact ih s cur rem cnt hwf hpr' hcur hids' hrows' hnd'
      · by_cases htq0 : (if rem ≤ r.quantity - r.filledQuantity then rem
            else r.quantity - r.filledQuantity) ≤ 0
        · rw [match_order_loop, if_neg hrem, if_neg hfull, if_pos htq0]
          exact ih s cur rem cnt hwf hpr' hcur hids' hrows' hnd'
        · cases hu : lookup_user s r.userId with
          | none =>
            rw [match_order_loop, if_neg hrem, if_neg hfull, if_neg htq0, hu]
            exact ih s cur rem cnt hwf hpr' hcur hids' hrows' hnd'
          | some u =>
            set tq : ℤ := if rem ≤ r.quantity - r.filledQuantity then rem
              else r.quantity - r.filledQuantity with htqdef
            have htq_pos : 0 < tq := by omega
            have htq_le : tq ≤ rem := by rw [htqdef]; split <;> omega
            have hner : oid ≠ r.orderId :=
              Ne.symm (hids r (List.mem_cons_self _ _))
            have hrrow : find_order s r.orderId = some r :=
              hrows r (List.mem_cons_self _ _)
            set s1 := execute_trade_concurrent s oid r.orderId
              (r.price.getD 0) tq with hs1def
            obtain ⟨hetr, hecur, heoth, heusr⟩ :=
              @execute_trade_effects s oid r.orderId (r.price.getD 0) tq _ _
                hcur hrrow hner
            have hwf1 : Wf s1 := wf_execute_trade hwf
              (price_in_range_nonneg (hpr r (List.mem_cons_self _ _)))
              htq_pos.le
            have hrows1 : ∀ x ∈ rest, find_order s1 x.orderId = some x := by
              intro x hx
              rw [heoth x.orderId (hids' x hx)
                (fun hh => hnotin (hh ▸ List.mem_map_of_mem _ hx))]
              exact hrows' x hx
            have hloop : match_order_loop oid s (r :: rest) rem cnt
                = match_order_loop oid s1 rest (rem - tq) (cnt + 1) := by
              rw [match_order_loop, if_neg hrem, if_neg hfull]
              simp only [← htqdef]
              rw [if_neg htq0, hu]
            obtain ⟨hwfo, cur', h3, h4, h5, h6, h7⟩ :=
              ih s1 (bump_filled tq cur) (rem - tq) (cnt + 1)
                hwf1 hpr' hecur hids' hrows1 hnd'
            rw [hloop]
            refine ⟨hwfo, cur', h3, ?_, ?_, ?_, ?_⟩
            · exact same_core_trans h4 (same_core_bump tq cur cur (same_core_refl cur))
            · have hbf : (bump_filled tq cur).filledQuantity
                  = cur.filledQuantity + tq := rfl
              rw [h5, hbf]
              ring
            · omega
            · intro h0
              have := h7 (by omega)
              omega

theorem matching_orders_prices {s : EngineState} {inc : OrderRec}
    (h : ∀ o ∈ s.orders, price_in_range o.price = true) :
    ∀ r ∈ matching_orders s inc, price_in_range r.price = true :=
  fun r hr => h r (mem_matching_orders.mp hr).1

theorem matching_orders_ids_ne {s : EngineState} {inc : OrderRec}
    (hrow : find_order s inc.orderId = some inc)
    (hnd : (s.orders.map OrderRec.orderId).Nodup) :
    ∀ r ∈ matching_orders s inc, r.orderId ≠ inc.orderId := by
  intro r hr heq
  obtain ⟨hrmem, hmf⟩ := mem_matching_orders.mp hr
  have hincmem : inc ∈ s.orders := (mem_of_find_by hrow).1
  have hre : r = inc := List.inj_on_of_nodup_map hnd hrmem hincmem heq
  obtain ⟨_, _, _, _, hB, hS⟩ := match_filter_spec hmf
  by_cases hb : inc.side = "BUY"
  · have hsd := (hB hb).1
    rw [hre, hb] at hsd
    exact absurd hsd (by decide)
  · exact hb (hre ▸ (hS hb).1)

theorem matching_orders_rows {s : EngineState} {inc : OrderRec}
    (hnd : (s.orders.map OrderRec.orderId).Nodup) :
    ∀ r ∈ matching_orders s inc, find_order s r.orderId = some r :=
  fun _ hr => find_by_of_mem_nodup hnd (mem_matching_orders.mp hr).1

theorem matching_orders_ids_nodup {s : EngineState} {inc : OrderRec}
    (hnd : (s.orders.map OrderRec.orderId).Nodup) :
    ((matching_orders s inc).map OrderRec.orderId).Nodup := by
  have hsub : List.Sublist
      ((s.orders.filter (match_filter inc)).map OrderRec.orderId)
      (s.orders.map OrderRec.orderId) :=
    (List.filter_sublist _).map _
  have h1 := hsub.nodup hnd
  have hperm := (sort_by_perm (match_le inc)
    (s.orders.filter (match_filter inc))).map OrderRec.orderId
  rw [matching_orders]
  exact (List.Perm.nodup_iff hperm).mpr h1

/-- `_match_order_concurrent` preserves well-formedness when called on a
freshly inserted (unfilled) order whose row is in the store. -/
theorem wf_match_order_concurrent {s : EngineState} {inc : OrderRec}
    (hwf : Wf s) (hrow : find_order s inc.orderId = some inc)
    (hf0 : inc.filledQuantity = 0) :
    Wf (match_order_concurrent s inc).1 := by
  have hprinc : price_in_range inc.price = true :=
    hwf.2.2.1 inc (mem_of_find_by hrow).1
  simp only [match_order_concurrent]
  by_cases hrem : inc.quantity - inc.filledQuantity ≤ 0
  · rw [if_pos hrem]
    exact hwf
  · rw [if_neg hrem]
    obtain ⟨hwf1, cur', h3, h4, h5, h6, h7⟩ :=
      match_loop_wf inc.orderId (matching_orders s inc) s inc
        (inc.quantity - inc.filledQuantity) 0 hwf
        (matching_orders_prices hwf.2.2.1) hrow
        (matching_orders_ids_ne hrow hwf.2.2.2.2.1)
        (matching_orders_rows hwf.2.2.2.2.1)
        (matching_orders_ids_nodup hwf.2.2.2.2.1)
    obtain ⟨hcid, hcuid, hccid, hcside, hccside, hcprice, hcqty⟩ := h4
    have hpro : price_in_range cur'.price = true := by
      rw [hcprice]
      exact hprinc
    have hp0 : 0 ≤ cur'.price.getD 0 := price_in_range_nonneg hpro
    have hrem' : 0 ≤ (match_order_loop inc.orderId s (matching_orders s inc)
        (inc.quantity - inc.filledQuantity) 0).2.1 := h7 (by omega)
    rw [h3]
    split
    · next h => exact Option.noConfusion h
    · next o hsome =>
      have ho : o = cur' := by
        injection hsome with h
        exact h.symm
      subst ho
      split
      · next hfq =>
        split
        · refine wf_credit_nonneg (wf_set_order_status _ _ hwf1) ?_
          exact int_cents_nonneg (by omega) hp0
        · exact wf_set_order_status _ _ hwf1
      · split
        · next hgt0 =>
          split
          · refine wf_credit_nonneg (wf_set_order_status _ _ hwf1) ?_
            refine int_cents_nonneg ?_ hp0
            omega
          · exact wf_set_order_status _ _ hwf1
        · split
          · refine wf_credit_nonneg hwf1 ?_
            refine int_cents_nonneg ?_ hp0
            omega
          · exact hwf1

theorem find_by_append_fresh {α κ : Type} [DecidableEq κ] {key : α → κ} {l : List α}
    {a : α} (h : ∀ x ∈ l, key x ≠ key a) :
    find_by key (key a) (l ++ [a]) = some a := by
  induction l with
  | nil => simp [find_by]
  | cons b t ih =>
    have hb := h b (List.mem_cons_self b t)
    rw [List.cons_append, find_by, List.find?_cons_of_neg]
    · exact ih fun x hx => h x (List.mem_cons_of_mem b hx)
    · simpa using hb

theorem price_in_range_of_not_out {p : Option ℚ} (h : price_out_of_range p = false) :
    price_in_range p = true := by
  cases p with
  | none => rfl
  | some q =>
    simp only [price_out_of_range, Bool.or_eq_false_iff, decide_eq_false_iff_not,
      not_lt] at h
    simp only [price_in_range, Bool.and_eq_true, decide_eq_true_eq]
    exact ⟨h.1, h.2⟩

/-- Order creation plus matching preserve well-formedness when the validated
price is in range. -/
theorem wf_place_order_rest {s : EngineState} {user_id contract_id : ℕ}
    {side contract_side order_type : String} {price : Option ℚ} {quantity : ℤ}
    (hwf : Wf s) (hpr : price_in_range price = true) :
    Wf (place_order_rest s user_id contract_id side contract_side order_type
      price quantity).1 := by
  obtain ⟨hbal, hpos, hprs, hund, hond, hbound⟩ := hwf
  simp only [place_order_rest]
  refine wf_match_order_concurrent ?_ ?_ rfl
  · refine ⟨hbal, hpos, ?_, hund, ?_, ?_⟩
    · intro o ho
      rcases List.mem_append.mp ho with h | h
      · exact hprs o h
      · rw [List.mem_singleton] at h
        subst h
        exact hpr
    · show ((s.orders ++ [_]).map OrderRec.orderId).Nodup
      rw [List.map_append]
      refine List.nodup_append.mpr ⟨hond, List.nodup_singleton _, ?_⟩
      intro x hx hx2
      rw [List.map_singleton, List.mem_singleton] at hx2
      obtain ⟨o, ho, hoeq⟩ := List.mem_map.mp hx
      have hb := hbound o ho
      have hx3 : x = s.nextOrderId := hx2
      omega
    · intro o ho
      rcases List.mem_append.mp ho with h | h
      · have := hbound o h
        show o.orderId < s.nextOrderId + 1
        omega
      · rw [List.mem_singleton] at h
        subst h
        show s.nextOrderId < s.nextOrderId + 1
        omega
  · refine find_by_append_fresh ?_
    intro x hx heq
    have hb := hbound x hx
    have hx3 : x.orderId = s.nextOrderId := heq
    omega

/-- The transactional body of `place_order` preserves well-formedness whenever
it commits. -/
theorem wf_place_order_tx {s : EngineState} {user_id contract_id : ℕ}
    {side contract_side order_type : String} {price : Option ℚ} {quantity : ℤ}
    {s1 : EngineState} {oid : ℕ}
    (hwf : Wf s) (hpr : price_in_range price = true)
    (htx : place_order_tx s user_id contract_id side contract_side order_type
      price quantity = .ok (s1, oid)) : Wf s1 := by
  rw [place_order_tx] at htx
  split at htx
  · cases htx
  · next contract hc =>
    split at htx
    · cases htx
    · split at htx
      · cases htx
      · next user hu =>
        split at htx
        · split at htx
          · cases htx
          · next pvar p =>
            dsimp only at htx
            split at htx
            · cases htx
            · next hguard =>
              injection htx with h
              have hs1 : s1 = (place_order_rest
                  (credit_user s user_id (-(int_cents quantity p))) user_id
                  contract_id side contract_side order_type (some p) quantity).1 := by
                rw [h]
              rw [hs1]
              exact wf_place_order_rest
                (wf_debit_guarded hwf hu (not_lt.mp hguard)) hpr
        · split at htx
          · cases htx
          · split at htx
            · cases htx
            · injection htx with h
              have hs1 : s1 = (place_order_rest s user_id contract_id side
                  contract_side order_type price quantity).1 := by
                rw [h]
              rw [hs1]
              exact wf_place_order_rest hwf hpr

/-- `place_order` preserves well-formedness (errors return the pre-state). -/
theorem wf_place_order (s : EngineState) (user_id contract_id : ℕ)
    (side contract_side order_type : String) (price : Option ℚ) (quantity : ℤ)
    (hwf : Wf s) :
    Wf (place_order s user_id contract_id side contract_side order_type price
      quantity).1 := by
  rw [place_order]
  split
  · exact hwf
  split
  · exact hwf
  split
  · exact hwf
  next hout =>
  have hpr : price_in_range price = true :=
    price_in_range_of_not_out (eq_false_of_ne_true hout)
  cases htx : place_order_tx s user_id contract_id side contract_side order_type
      price quantity with
  | error e => exact hwf
  | ok pr =>
    obtain ⟨s1, oid⟩ := pr
    exact wf_place_order_tx hwf hpr htx

/-- `cancel_order` preserves well-formedness: the refund of the remaining
reservation is non-negative because stored prices are in range. -/
theorem wf_cancel_order (s : EngineState) (order_id user_id : ℕ) (hwf : Wf s) :
    Wf (cancel_order s order_id user_id).1 := by
  rw [cancel_order]
  cases hf : s.orders.find? (fun o =>
      o.orderId = order_id && o.userId = user_id &&
      (o.status = "open" || o.status = "partially_filled")) with
  | none => exact hwf
  | some order =>
    have hmem : order ∈ s.orders := List.mem_of_find?_eq_some hf
    have hpro : price_in_range order.price = true := hwf.2.2.1 order hmem
    split
    · next heq => exact Option.noConfusion heq
    · next o hsome =>
      have ho : order = o := by injection hsome
      subst ho
      split
      · dsimp only
        split
        · next hrem =>
          cases hp : order.price with
          | none => exact hwf
          | some p =>
            have hp0 : (0 : ℚ) ≤ p := by
              have h := price_in_range_nonneg (hp ▸ hpro)
              simpa using h
            have href : 0 ≤ int_cents (order.quantity - order.filledQuantity) p :=
              int_cents_nonneg (le_of_lt hrem) hp0
            dsimp only
            cases lookup_user s user_id with
            | none => exact wf_set_order_status _ _ hwf
            | some u => exact wf_set_order_status _ _ (wf_credit_nonneg hwf href)
        · exact wf_set_order_status _ _ hwf
      · exact wf_set_order_status _ _ hwf

/-- The position update of `_payout_contract` changes only `realized_pnl` and
`is_active`, so it preserves well-formedness. -/
theorem wf_upd_position_keep {s : EngineState} {u c : ℕ} {cs : String}
    {f : PositionRec → PositionRec}
    (hq : ∀ p, (f p).quantity = p.quantity) (ha : ∀ p, (f p).avgPrice = p.avgPrice)
    (hwf : Wf s) : Wf (upd_position s u c cs f) := by
  obtain ⟨hbal, hpos, hpr, hund, hond, hbound⟩ := hwf
  refine ⟨hbal, ?_, hpr, hund, hond, hbound⟩
  intro p hp
  rw [upd_position] at hp
  simp only [upd_by, List.mem_map] at hp
  obtain ⟨p0, hp0, rfl⟩ := hp
  split
  · rw [hq p0, ha p0]
    exact hpos p0 hp0
  · exact hpos p0 hp0

/-- One iteration of the payout loop preserves well-formedness: the payout is
non-negative for a position with non-negative quantity and cost basis. -/
theorem wf_payout_position {st : EngineState} {res : String} {pos : PositionRec}
    (hwf : Wf st) (hq : 0 ≤ pos.quantity) (ha : 0 ≤ pos.avgPrice) :
    Wf (payout_position res st pos) := by
  simp only [payout_position]
  cases lookup_user st pos.userId with
  | none => exact hwf
  | some u =>
    have hpay : 0 ≤ (if res = "UNDECIDED" then int_cents pos.quantity pos.avgPrice
        else if pos.contractSide = res then pos.quantity * 100 else 0) := by
      split
      · exact int_cents_nonneg hq ha
      · split
        · omega
        · exact le_refl 0
    exact wf_upd_position_keep (fun p => rfl) (fun p => rfl)
      (wf_credit_nonneg hwf hpay)

theorem wf_fold_payout (res : String) :
    ∀ (ps : List PositionRec) (st : EngineState),
      Wf st → (∀ p ∈ ps, 0 ≤ p.quantity ∧ 0 ≤ p.avgPrice) →
      Wf (ps.foldl (payout_position res) st)
  | [], st, hwf, _ => hwf
  | p :: ps, st, hwf, hps => by
    rw [List.foldl_cons]
    exact wf_fold_payout res ps _
      (wf_payout_position hwf (hps p (List.mem_cons_self p ps)).1
        (hps p (List.mem_cons_self p ps)).2)
      (fun q hq => hps q (List.mem_cons_of_mem p hq))

theorem wf_payout_contract {s : EngineState} (contract : ContractRec) (res : String)
    (hwf : Wf s) : Wf (payout_contract s contract res) := by
  rw [payout_contract]
  refine wf_fold_payout res _ s hwf ?_
  intro p hp
  exact hwf.2.1 p (List.mem_of_mem_filter hp)

theorem wf_fold_contracts (res : String) :
    ∀ (cs : List ContractRec) (st : EngineState), Wf st →
      Wf (cs.foldl (fun st c => payout_contract st c res) st)
  | [], _, hwf => hwf
  | c :: cs, st, hwf => by
    rw [List.foldl_cons]
    exact wf_fold_contracts res cs _ (wf_payout_contract c res hwf)

/-- `process_market_resolution` preserves well-formedness. -/
theorem wf_process_market_resolution (s : EngineState) (market : MarketRec)
    (hwf : Wf s) : Wf (process_market_resolution s market).1 := by
  simp only [process_market_resolution]
  split
  · exact hwf
  · exact wf_fold_contracts _ _ s hwf

/-- One public engine operation: the mutating service entry points. -/
inductive EngineOp where
  | place (user_id contract_id : ℕ) (side contract_side order_type : String)
      (price : Option ℚ) (quantity : ℤ)
  | cancel (order_id user_id : ℕ)
  | resolve (market : MarketRec)

/-- Apply one engine operation, keeping the resulting state. -/
def apply_op (s : EngineState) : EngineOp → EngineState
  | .place u c sd cs ot p q => (place_order s u c sd cs ot p q).1
  | .cancel oid uid => (cancel_order s oid uid).1
  | .resolve m => (process_market_resolution s m).1

/-- States reachable from `s0` by sequences of engine operations. -/
inductive Reachable (s0 : EngineState) : EngineState → Prop where
  | refl : Reachable s0 s0
  | step {s : EngineState} (op : EngineOp) : Reachable s0 s → Reachable s0 (apply_op s op)

theorem reachable_wf {s0 s : EngineState} (hwf : Wf s0) (h : Reachable s0 s) :
    Wf s := by
  induction h with
  | refl => exact hwf
  | step op _ ih =>
    cases op with
    | place u c sd cs ot p q => exact wf_place_order _ u c sd cs ot p q ih
    | cancel oid uid => exact wf_cancel_order _ oid uid ih
    | resolve m => exact wf_process_market_resolution _ m ih

/-- **C7** (confirmed, with the initial state assumed data-model well-formed).
In every state reachable from a well-formed state — non-negative balances and
position quantities together with the data-model invariants recorded by `Wf`
(non-negative cost bases, stored prices in the validated range, unique primary
keys, id sequence ahead of stored orders) — by any sequence of `place_order`,
`cancel_order` and market-resolution operations, every user's balance is ≥ 0
and every position's quantity is ≥ 0. -/
theorem C7_no_negative_state {s0 s : EngineState}
    (hwf : Wf s0) (hreach : Reachable s0 s) :
    (∀ u ∈ s.users, 0 ≤ u.balance) ∧ (∀ p ∈ s.positions, 0 ≤ p.quantity) :=
  ⟨(reachable_wf hwf hreach).1, fun p hp => ((reachable_wf hwf hreach).2.1 p hp).1⟩

theorem C7_no_negative_state_witness :
    Wf state_a ∧
    ((∀ u ∈ state_a1.users, 0 ≤ u.balance) ∧
     (∀ p ∈ state_a1.positions, 0 ≤ p.quantity)) :=
  have hwf : Wf state_a := by unfold Wf; decide
  ⟨hwf, C7_no_negative_state hwf
    (Reachable.step
      (EngineOp.place 1 1 "BUY" "YES" "limit" (some (mkRat 1 2)) 100)
      Reachable.refl)⟩

end Sidebet
